import Mathlib

/-!
Verification of the selection-set flattening core of the `gql` complexity
analyzer (Go package `complexity`).

The Go source is embedded shallowly:

* `Selection`, `FieldS`, `FragmentDefinition`, `OperationDefinition` and
  `QueryDocument` mirror the `gqlparser/ast` values the code manipulates.
  The Go `ast.Field` carries `Arguments`, `Directives`, `Position`,
  `Comment`, `Definition` and `ObjectDefinition` only as pass-through
  payload (never inspected by the package); they are represented here by
  two pass-through `String` payloads (`arguments`, `directives`).
* `flattenSelectionSet` in Go recurses through fragment definitions and
  re-flattens concatenations of selection sets, so it is not structurally
  recursive; the embedding takes an explicit fuel parameter and returns
  `none` when the fuel is exhausted.  Fuel is consumed exactly once per
  nested invocation of `flattenSelectionSet`.
* The Go `fieldMap` is a `map[string]*ast.Field`; its key-indexed reads and
  writes are order-independent, and the only order-sensitive step is the
  final `for _, field := range fieldMap` conversion, whose iteration order
  Go leaves unspecified.  The embedding determinizes the map as an
  insertion-ordered association list, which realises one admissible
  iteration order; the specification itself only compares outputs up to
  order.
* Mutation of `existing.SelectionSet` is local to the `fieldMap` being
  built (the entries are nodes freshly created by the call); a separate
  heap-based embedding (`flattenSelectionSetH` below) models the pointer
  structure explicitly and proves the frame property.
-/

namespace Gql

/-- A GraphQL selection, mirroring `ast.Selection`
(`*ast.Field | *ast.InlineFragment | *ast.FragmentSpread`). -/
inductive Selection : Type where
  | field (falias name arguments directives : String)
      (selectionSet : List Selection)
  | inlineFragment (typeCondition : String) (selectionSet : List Selection)
  | fragmentSpread (name : String)
deriving Repr

/-- The payload of an `ast.Field`, used for the entries of the Go
`fieldMap` (`map[string]*ast.Field`). -/
structure FieldS : Type where
  falias : String
  name : String
  arguments : String
  directives : String
  selectionSet : List Selection
deriving Repr

/-- Mirrors `ast.FragmentDefinition` (name, type condition, selection set). -/
structure FragmentDefinition : Type where
  name : String
  typeCondition : String
  selectionSet : List Selection
deriving Repr

/-- Mirrors `ast.OperationDefinition`.  `operation`, `position`, `comment`
and the variable definitions and directives are pass-through payload. -/
structure OperationDefinition : Type where
  operation : String
  name : String
  variableDefinitions : List String
  directives : List String
  selectionSet : List Selection
  position : String
  comment : String
deriving Repr

/-- Mirrors `ast.QueryDocument` (operations plus fragment definitions). -/
structure QueryDocument : Type where
  operations : List OperationDefinition
  fragments : List FragmentDefinition
deriving Repr

/-- Linear search of `doc.Fragments`, lines 244-251 of the source
(`findFragmentDefinition`). -/
def findFrag : List FragmentDefinition → String → Option FragmentDefinition
  | [], _ => none
  | fd :: rest, nm => if fd.name = nm then some fd else findFrag rest nm

/-- `findFragmentDefinition(doc, name)` from the source. -/
def findFragmentDefinition (doc : QueryDocument) (nm : String) :
    Option FragmentDefinition :=
  findFrag doc.fragments nm

/-- The deduplication key computed at lines 151-154 (and 186-189, 212-215):
`key := sel.Name; if sel.Alias != "" { key = sel.Alias + ":" + sel.Name }`. -/
def fieldKey (falias name : String) : String :=
  if falias = "" then name else falias ++ ":" ++ name

/-- The response key in the sense of the specification: the alias if
present, otherwise the field name.  (Stated from the spec; used only to
state claims, never by the embedded code.) -/
def responseKey (falias name : String) : String :=
  if falias = "" then name else falias

/-- Response key of a selection (fields only; fragments have none). -/
def selResponseKey : Selection → String
  | .field a n _ _ _ => responseKey a n
  | _ => ""

/-- Dedup key of a selection (fields only). -/
def selKey : Selection → String
  | .field a n _ _ _ => fieldKey a n
  | _ => ""

/-- Go `fieldMap[key]` read: first (unique) entry with the given key. -/
def lookupField : List (String × FieldS) → String → Option FieldS
  | [], _ => none
  | (k, f) :: rest, key => if k = key then some f else lookupField rest key

/-- Go `fieldMap[key] = v` on a key already present: replace in place. -/
def updateField : List (String × FieldS) → String → FieldS →
    List (String × FieldS)
  | [], _, _ => []
  | (k, f) :: rest, key, nf =>
      if k = key then (k, nf) :: rest else (k, f) :: updateField rest key nf

/-- The `for _, field := range fieldMap` conversion at lines 235-238:
read the entries back as a selection set. -/
def mapValues (m : List (String × FieldS)) : List Selection :=
  m.map (fun p =>
    Selection.field p.2.falias p.2.name p.2.arguments p.2.directives
      p.2.selectionSet)

/-- The `case *ast.Field` branch, lines 149-179.  `flat` is the recursive
call `flattenSelectionSet(…, doc)` at the current fuel budget.
On a duplicate key the existing entry keeps its own alias, name and
payload and has its selection set replaced by the re-flattened
concatenation (lines 156-164); otherwise a new field with recursively
flattened children is inserted (lines 167-179). -/
def processField (flat : List Selection → Option (List Selection))
    (m : List (String × FieldS)) (a nm x y : String) (c : List Selection) :
    Option (List (String × FieldS)) :=
  let key := fieldKey a nm
  match lookupField m key with
  | some existing => do
      let merged ← flat (existing.selectionSet ++ c)
      some (updateField m key { existing with selectionSet := merged })
  | none => do
      let c2 ← flat c
      some (m ++ [(key, ⟨a, nm, x, y, c2⟩)])

/-- The inner loop body of the `case *ast.InlineFragment` and
`case *ast.FragmentSpread` branches (lines 184-204 and 210-229): fold one
already-flattened fragment selection into the map.  A non-field selection
is skipped (the `if field, ok := fragSel.(*ast.Field)` filter); a fresh
field is stored as-is (lines 202, 227), and a duplicate key triggers the
same merge as for plain fields (lines 191-200, 217-225). -/
def foldFragField (flat : List Selection → Option (List Selection))
    (m : List (String × FieldS)) : Selection →
    Option (List (String × FieldS))
  | .field a nm x y c =>
      let key := fieldKey a nm
      match lookupField m key with
      | some existing => do
          let merged ← flat (existing.selectionSet ++ c)
          some (updateField m key { existing with selectionSet := merged })
      | none => some (m ++ [(key, ⟨a, nm, x, y, c⟩)])
  | _ => some m

/-- One iteration of the `for _, selection := range selectionSet` loop
(lines 147-232), dispatching on the selection kind. -/
def processSelection (flat : List Selection → Option (List Selection))
    (doc : QueryDocument) (m : List (String × FieldS)) :
    Selection → Option (List (String × FieldS))
  | .field a nm x y c => processField flat m a nm x y c
  | .inlineFragment _ c => do
      let fs ← flat c
      List.foldlM (foldFragField flat) m fs
  | .fragmentSpread nm =>
      match findFragmentDefinition doc nm with
      | some fd => do
          let fs ← flat fd.selectionSet
          List.foldlM (foldFragField flat) m fs
      | none => some m

/-- `flattenSelectionSet(selectionSet, doc)`, lines 144-241, with an
explicit fuel budget: each nested invocation consumes one unit, and `none`
reports fuel exhaustion (the Go function has no error path). -/
def flattenSelectionSet : Nat → QueryDocument → List Selection →
    Option (List Selection)
  | 0, _, _ => none
  | n + 1, doc, sels =>
      (List.foldlM
        (fun m s =>
          processSelection (fun ss => flattenSelectionSet n doc ss) doc m s)
        [] sels).map mapValues

/-- `flatten(doc, op)`, lines 122-141: a fresh operation with the same
kind, name, variable definitions, directives, position and comment, and a
flattened selection set. -/
def flatten (fuel : Nat) (doc : QueryDocument) (op : OperationDefinition) :
    Option OperationDefinition :=
  (flattenSelectionSet fuel doc op.selectionSet).map (fun ss =>
    { operation := op.operation
      name := op.name
      variableDefinitions := op.variableDefinitions
      directives := op.directives
      selectionSet := ss
      position := op.position
      comment := op.comment })

/-- Modelled from the spec: the external Complexity Scorer
(`gqlgen complexity.Calculate` invoked by `AnalyseDocument`, which is not
part of this repository).  Per section 6 of the spec the configured cost
rule is `cost = childComplexity + 1` for every field; per section 8 a
fragment spread contributes the complexity of its (resolved) fragment body
and an inline fragment that of its nested selection set, so raw complexity
counts each spread's fields separately.  Fueled like the flattener because
it also recurses through fragment definitions. -/
def calculateSS : Nat → QueryDocument → List Selection → Option Nat
  | 0, _, _ => none
  | n + 1, doc, sels =>
      List.foldlM
        (fun acc s =>
          match s with
          | .field _ _ _ _ c => do
              let ch ← calculateSS n doc c
              some (acc + ch + 1)
          | .inlineFragment _ c => do
              let ch ← calculateSS n doc c
              some (acc + ch)
          | .fragmentSpread nm =>
              match findFragmentDefinition doc nm with
              | some fd => do
                  let ch ← calculateSS n doc fd.selectionSet
                  some (acc + ch)
              | none => some acc)
        0 sels

/-- Mirrors the `DocumentAnalysis` result record (lines 89-93). -/
structure DocumentAnalysis : Type where
  operationName : String
  complexity : Nat
  flattenedComplexity : Nat
deriving Repr, DecidableEq

/-- `AnalyseDocument` (lines 95-119): one result per operation, in
document order, scoring the raw and the flattened operation.  The
up-front schema validation is an external collaborator (spec section 6:
the core receives an already-validated document); it is modelled as
succeeding, and the external scorer is `calculateSS` above. -/
def analyseDocument (fuel : Nat) (doc : QueryDocument) :
    Option (List DocumentAnalysis) :=
  doc.operations.mapM (fun op => do
    let raw ← calculateSS fuel doc op.selectionSet
    let flatOp ← flatten fuel doc op
    let fl ← calculateSS fuel doc flatOp.selectionSet
    some ⟨op.name, raw, fl⟩)

/-! ### The reference test fixture

The schema/query pair of the repository test (`TestAnalyseDocument`), as
produced by the external parser; `gqlparser` populates `Alias` with the
field name whenever no explicit alias is written, so every fixture field
carries its name as alias. -/

def idSel : Selection := .field "id" "id" "" "" []

def nameSel : Selection := .field "name" "name" "" "" []

def userSel : Selection :=
  .field "user" "user" "id: $id" ""
    [.fragmentSpread "HeaderFragment", .fragmentSpread "UserFragment"]

def getOrderOp : OperationDefinition :=
  ⟨"query", "GetOrder", ["$id: ID!"], [], [userSel], "", ""⟩

def headerFragment : FragmentDefinition :=
  ⟨"HeaderFragment", "User", [idSel, nameSel]⟩

def userFragment : FragmentDefinition :=
  ⟨"UserFragment", "User", [idSel, nameSel]⟩

def fixtureDoc : QueryDocument :=
  ⟨[getOrderOp], [headerFragment, userFragment]⟩

def emptyDoc : QueryDocument := ⟨[], []⟩

/-- A two-fragment acyclic chain (`A` spreads `B`), used to witness the
termination theorem. -/
def fragB10 : FragmentDefinition := ⟨"B", "T", [idSel]⟩

def fragA10 : FragmentDefinition := ⟨"A", "T", [.fragmentSpread "B"]⟩

def docAB : QueryDocument := ⟨[], [fragA10, fragB10]⟩

/-! ### Derived views of the algorithm, used by the proofs -/

/-- The field map built by one invocation of `flattenSelectionSet`. -/
abbrev FMap := List (String × FieldS)

/-- One loop iteration of `flattenSelectionSet (n+1)`, with the recursive
call at budget `n`. -/
def flattenStep (n : Nat) (doc : QueryDocument) (m : FMap) (s : Selection) :
    Option FMap :=
  processSelection (fun ss => flattenSelectionSet n doc ss) doc m s

/-- One inner-loop iteration of the inline-fragment / fragment-spread
branches, with the recursive call at budget `n`. -/
def fragStep (n : Nat) (doc : QueryDocument) (m : FMap) (s : Selection) :
    Option FMap :=
  foldFragField (fun ss => flattenSelectionSet n doc ss) m s

/-- The keys of a field map. -/
def keysOf (m : FMap) : List String := m.map Prod.fst

/-- Field payload of a selection (junk on non-fields, which never occur
where this is used). -/
def fieldOf : Selection → FieldS
  | .field a n x y c => ⟨a, n, x, y, c⟩
  | _ => ⟨"", "", "", "", []⟩

/-- The association list whose values re-read as the given (field-only)
selection set. -/
def assocOf (sels : List Selection) : FMap :=
  sels.map (fun s => (selKey s, fieldOf s))

mutual

/-- Well-formedness of one flattened selection: a field whose children
form a well-formed flattened selection set. -/
inductive FlatSel : Selection → Prop where
  | field (a n x y : String) (c : List Selection) :
      FlatNS c → FlatSel (Selection.field a n x y c)

/-- Well-formedness of a flattened selection set: only fields, with
pairwise-distinct deduplication keys, recursively. -/
inductive FlatNS : List Selection → Prop where
  | mk (sels : List Selection) :
      (∀ s ∈ sels, FlatSel s) → (sels.map selKey).Nodup → FlatNS sels

end

/-- Invariant of the field map during the main loop: keys are pairwise
distinct, each entry is keyed by its field's dedup key, and each entry's
children are a fixed point of flattening at budget `n` and well formed. -/
def MapOK (n : Nat) (doc : QueryDocument) (m : FMap) : Prop :=
  (keysOf m).Nodup ∧
  ∀ p ∈ m, p.1 = fieldKey p.2.falias p.2.name ∧
    flattenSelectionSet n doc p.2.selectionSet = some p.2.selectionSet ∧
    FlatNS p.2.selectionSet

/-- Every selection is a field whose children are a fixed point of
flattening at budget `n` and well formed (the per-element part of the
output invariant). -/
def FlatOutOK (n : Nat) (doc : QueryDocument) (sels : List Selection) :
    Prop :=
  ∀ s ∈ sels, ∃ a nm x y c, s = Selection.field a nm x y c ∧
    flattenSelectionSet n doc c = some c ∧ FlatNS c

/-- What the inner fragment-field fold requires of one of its inputs:
if it is a field, its children are a flattening fixed point and well
formed (non-fields are skipped, so nothing is required of them). -/
def FragArgOK (n : Nat) (doc : QueryDocument) : Selection → Prop
  | .field _ _ _ _ c => flattenSelectionSet n doc c = some c ∧ FlatNS c
  | _ => True

/-! ### Erasure of inline-fragment type conditions (for claim C9) -/

mutual

/-- Replace every inline-fragment type condition by the empty string,
recursively.  Two selections are "equal up to inline-fragment type
conditions" exactly when their erasures coincide. -/
def stripSel : Selection → Selection
  | .field a n x y c => .field a n x y (stripList c)
  | .inlineFragment _ c => .inlineFragment "" (stripList c)
  | .fragmentSpread n => .fragmentSpread n

/-- Pointwise `stripSel` on a selection set. -/
def stripList : List Selection → List Selection
  | [] => []
  | s :: rest => stripSel s :: stripList rest

end

/-- Erase inline-fragment type conditions in a fragment definition's body
(the definition's own type condition is not an inline-fragment type
condition and stays). -/
def stripFrag (fd : FragmentDefinition) : FragmentDefinition :=
  ⟨fd.name, fd.typeCondition, stripList fd.selectionSet⟩

/-- Erase inline-fragment type conditions in an operation. -/
def stripOp (op : OperationDefinition) : OperationDefinition :=
  { op with selectionSet := stripList op.selectionSet }

/-- Erase inline-fragment type conditions everywhere in a document. -/
def stripDoc (doc : QueryDocument) : QueryDocument :=
  ⟨doc.operations.map stripOp, doc.fragments.map stripFrag⟩

/-! ### Fragment acyclicity and expansion weight (for claim C10)

The Go recursion is bounded only by the acyclicity of the fragment
reference graph (guaranteed upstream by validation; the code has no
visited-fragment guard).  Acyclicity is witnessed by an environment
list `env` of fragment definitions in reverse-topological order: a
spread resolved by the document must be found in `env`, and its body
must be covered by the strictly shorter suffix behind it.  The
expansion weight of a selection relative to `env` then bounds the fuel
the fueled embedding needs. -/

/-- Find a fragment in the environment, returning also the suffix
behind it (the only part its body may reference). -/
def findTopo : List FragmentDefinition → String →
    Option (List FragmentDefinition × FragmentDefinition)
  | [], _ => none
  | fd :: rest, nm =>
      if fd.name = nm then some (rest, fd) else findTopo rest nm

mutual

/-- Expansion weight of one selection relative to an environment:
one per field or fragment plus the weight of the (resolved) children. -/
def weightS : List FragmentDefinition → Selection → Nat
  | env, .field _ _ _ _ c => 1 + weightL env c
  | env, .inlineFragment _ c => 1 + weightL env c
  | [], .fragmentSpread _ => 1
  | fd :: rest, .fragmentSpread nm =>
      if fd.name = nm then 1 + weightL rest fd.selectionSet
      else weightS rest (.fragmentSpread nm)
termination_by env s => (env.length, sizeOf s)

/-- Expansion weight of a selection set: the sum of its members'. -/
def weightL : List FragmentDefinition → List Selection → Nat
  | _, [] => 0
  | env, s :: rest => weightS env s + weightL env rest
termination_by env l => (env.length, sizeOf l)

end

/-- Acyclicity witness: every spread that the document resolves is found
at the same fragment in the environment, and the fragment body is
covered by the suffix behind it. -/
inductive EnvOKSel (doc : QueryDocument) :
    List FragmentDefinition → Selection → Prop where
  | field (env : List FragmentDefinition) (a n x y : String)
      (c : List Selection) : (∀ s ∈ c, EnvOKSel doc env s) →
      EnvOKSel doc env (.field a n x y c)
  | inl (env : List FragmentDefinition) (tc : String)
      (c : List Selection) : (∀ s ∈ c, EnvOKSel doc env s) →
      EnvOKSel doc env (.inlineFragment tc c)
  | sprNone (env : List FragmentDefinition) (nm : String) :
      findFragmentDefinition doc nm = none →
      EnvOKSel doc env (.fragmentSpread nm)
  | sprSome (env : List FragmentDefinition) (nm : String)
      (fd : FragmentDefinition) (rest : List FragmentDefinition) :
      findFragmentDefinition doc nm = some fd →
      findTopo env nm = some (rest, fd) →
      (∀ s ∈ fd.selectionSet, EnvOKSel doc rest s) →
      EnvOKSel doc env (.fragmentSpread nm)

/-- Acyclicity witness for a whole selection set. -/
def EnvOKL (doc : QueryDocument) (env : List FragmentDefinition)
    (sels : List Selection) : Prop :=
  ∀ s ∈ sels, EnvOKSel doc env s

/-- Total expansion weight stored in a field map. -/
def mapWeight (m : FMap) : Nat :=
  (m.map (fun p => 1 + weightL [] p.2.selectionSet)).sum

/-! ### Heap-based embedding (for claim C8)

The pointer structure of the Go code is modelled explicitly: every
`*ast.Field` is a heap cell addressed by a numeric id, selection sets
reference fields by id, and the only mutation in the source —
`existing.SelectionSet = flattenSelectionSet(mergedSelectionSet, doc)` —
becomes a heap write.  The claim that flattening never mutates its
inputs is the frame property: every cell allocated before the call reads
the same after it. -/

/-- A selection in the heap model: fields are references. -/
inductive HSel : Type where
  | field (ref : Nat)
  | inlineFragment (typeCondition : String) (selectionSet : List HSel)
  | fragmentSpread (name : String)
deriving Repr

/-- A heap cell: the mutable payload of one `*ast.Field`. -/
structure HField : Type where
  falias : String
  name : String
  arguments : String
  directives : String
  selectionSet : List HSel
deriving Repr

/-- Fragment definition in the heap model. -/
structure HFragmentDefinition : Type where
  name : String
  typeCondition : String
  selectionSet : List HSel
deriving Repr

/-- Document in the heap model (only the fragments are consulted by
`flattenSelectionSet`). -/
structure HQueryDocument : Type where
  fragments : List HFragmentDefinition
deriving Repr

/-- The heap: an allocation counter and a store of field cells. -/
structure Heap : Type where
  next : Nat
  mem : List (Nat × HField)
deriving Repr

/-- First cell with the given id. -/
def lookupHF : List (Nat × HField) → Nat → Option HField
  | [], _ => none
  | (k, f) :: rest, i => if k = i then some f else lookupHF rest i

/-- Dereference a field pointer. -/
def readH (h : Heap) (i : Nat) : Option HField := lookupHF h.mem i

/-- The Go assignment `existing.SelectionSet = …`: overwrite cell `i`
(no effect on an unallocated id). -/
def writeH (h : Heap) (i : Nat) (f : HField) : Heap :=
  ⟨h.next, h.mem.map (fun p => if p.1 = i then (i, f) else p)⟩

/-- The Go `&ast.Field{…}` allocation: a fresh cell. -/
def allocH (h : Heap) (f : HField) : Heap × Nat :=
  (⟨h.next + 1, (h.next, f) :: h.mem⟩, h.next)

/-- `findFragmentDefinition` in the heap model. -/
def findHFrag : List HFragmentDefinition → String → Option HFragmentDefinition
  | [], _ => none
  | fd :: rest, nm => if fd.name = nm then some fd else findHFrag rest nm

/-- The heap-model field map: dedup key to field pointer, mirroring
`map[string]*ast.Field`. -/
abbrev HMap := List (String × Nat)

/-- `fieldMap[key]` in the heap model. -/
def lookupHMap : HMap → String → Option Nat
  | [], _ => none
  | (k, i) :: rest, key => if k = key then some i else lookupHMap rest key

/-- Dedup key of a field cell (lines 151-154). -/
def hFieldKey (f : HField) : String := fieldKey f.falias f.name

/-- The `case *ast.Field` branch in the heap model (lines 149-179):
reads go through the heap, the merge writes the existing cell in place,
and the fresh path allocates a new cell with flattened children. -/
def processFieldH (flat : Heap → List HSel → Option (Heap × List HSel))
    (h : Heap) (m : HMap) (ref : Nat) : Option (Heap × HMap) := do
  let f ← readH h ref
  let key := hFieldKey f
  match lookupHMap m key with
  | some ex => do
      let exF ← readH h ex
      let (h2, merged) ← flat h (exF.selectionSet ++ f.selectionSet)
      some (writeH h2 ex { exF with selectionSet := merged }, m)
  | none => do
      let (h2, c2) ← flat h f.selectionSet
      let (h3, nid) := allocH h2 { f with selectionSet := c2 }
      some (h3, m ++ [(key, nid)])

/-- The inner fold of the fragment branches in the heap model
(lines 184-204, 210-229): a fresh field stores the pointer as-is, a
duplicate key merges by writing the existing cell, non-fields are
skipped. -/
def foldFragFieldH (flat : Heap → List HSel → Option (Heap × List HSel))
    (h : Heap) (m : HMap) : HSel → Option (Heap × HMap)
  | .field ref => do
      let f ← readH h ref
      let key := hFieldKey f
      match lookupHMap m key with
      | some ex => do
          let exF ← readH h ex
          let (h2, merged) ← flat h (exF.selectionSet ++ f.selectionSet)
          some (writeH h2 ex { exF with selectionSet := merged }, m)
      | none => some (h, m ++ [(key, ref)])
  | _ => some (h, m)

/-- One loop iteration in the heap model. -/
def processSelectionH (flat : Heap → List HSel → Option (Heap × List HSel))
    (doc : HQueryDocument) (h : Heap) (m : HMap) :
    HSel → Option (Heap × HMap)
  | .field ref => processFieldH flat h m ref
  | .inlineFragment _ c => do
      let (h2, fs) ← flat h c
      List.foldlM (fun (st : Heap × HMap) t => foldFragFieldH flat st.1 st.2 t)
        (h2, m) fs
  | .fragmentSpread nm =>
      match findHFrag doc.fragments nm with
      | some fd => do
          let (h2, fs) ← flat h fd.selectionSet
          List.foldlM
            (fun (st : Heap × HMap) t => foldFragFieldH flat st.1 st.2 t)
            (h2, m) fs
      | none => some (h, m)

/-- `flattenSelectionSet` in the heap model, fueled like the pure one;
returns the final heap and the output selection set (pointers to the
map's values, lines 235-238). -/
def flattenSelectionSetH : Nat → HQueryDocument → Heap → List HSel →
    Option (Heap × List HSel)
  | 0, _, _, _ => none
  | n + 1, doc, h, sels => do
      let (h2, m) ← List.foldlM
        (fun (st : Heap × HMap) s =>
          processSelectionH (fun hh ss => flattenSelectionSetH n doc hh ss)
            doc st.1 st.2 s)
        (h, []) sels
      some (h2, m.map (fun p => HSel.field p.2))

/-- Heaps agree on everything allocated before `h`. -/
def heapFrame (h h2 : Heap) : Prop :=
  h.next ≤ h2.next ∧ ∀ i, i < h.next → readH h2 i = readH h i

/-- A live pointer created by the current call: at least `h0.next`,
below the current counter, and dereferenceable. -/
def idOK (cur h0 : Heap) (r : Nat) : Prop :=
  h0.next ≤ r ∧ r < cur.next ∧ (readH cur r).isSome

/-- Every output selection is a live field pointer created between the
two heaps. -/
def outOK (h h2 : Heap) (out : List HSel) : Prop :=
  ∀ s ∈ out, ∃ r, s = HSel.field r ∧ idOK h2 h r

/-- The frame contract of a flattening function: pre-existing cells are
untouched and all outputs are freshly allocated live fields. -/
def FrameOK (flat : Heap → List HSel → Option (Heap × List HSel)) : Prop :=
  ∀ h S h2 out, flat h S = some (h2, out) →
    heapFrame h h2 ∧ outOK h h2 out

/-- Loop-state invariant of the heap-model folds: the heap respects the
frame of the call-entry heap `h0`, and every map value and every pending
fragment-field pointer is live and call-created. -/
def stOK (h0 : Heap) (refs : List Nat) (st : Heap × HMap) : Prop :=
  heapFrame h0 st.1 ∧ (∀ p ∈ st.2, idOK st.1 h0 p.2) ∧
  ∀ r ∈ refs, idOK st.1 h0 r

/-- Field pointers of a fragment-fold input list. -/
def refsOf (fs : List HSel) : List Nat :=
  fs.filterMap (fun s => match s with | .field r => some r | _ => none)

/-- Heap-model witness fixture: two pre-existing field cells (the `id`
field owned by a fragment definition and a `name` field of the
operation). -/
def hWitHeap : Heap :=
  ⟨2, [(0, ⟨"id", "id", "", "", []⟩), (1, ⟨"name", "name", "", "", []⟩)]⟩

def hWitDoc : HQueryDocument := ⟨[⟨"F", "T", [.field 0]⟩]⟩

def hWitSel : List HSel := [.fragmentSpread "F", .field 1]

/-- The heap produced by flattening the witness fixture: the two input
cells 0 and 1 are unchanged, the output fields live in fresh cells 2
and 3. -/
def hWitHeap2 : Heap :=
  ⟨4, [(3, ⟨"name", "name", "", "", []⟩), (2, ⟨"id", "id", "", "", []⟩),
    (0, ⟨"id", "id", "", "", []⟩), (1, ⟨"name", "name", "", "", []⟩)]⟩

/-! ### Theorems -/

/-- C1 counterexample: the claim says two sibling fields with the same
response key (alias if present, else name) are always merged into a
single entry.  With alias `a` on the distinct names `foo` and `bar` both
fields have response key `a`, yet flattening keeps both entries, because
the code keys the map by `alias:name`, not by the response key. -/
theorem respkey_not_dedup_key_cex :
    flattenSelectionSet 2 emptyDoc
        [.field "a" "foo" "" "" [], .field "a" "bar" "" "" []] =
      some [.field "a" "foo" "" "" [], .field "a" "bar" "" "" []] ∧
    selResponseKey (.field "a" "foo" "" "" []) =
      selResponseKey (.field "a" "bar" "" "" []) ∧
    [Selection.field "a" "foo" "" "" [], .field "a" "bar" "" "" []].length ≠ 1 := by
  exact ⟨rfl, rfl, by decide⟩

/-- C1 (amended): the deduplication key of a `Field` is the field name
when no alias is present and the string `alias:name` otherwise
(`fieldKey`); two sibling fields are merged into a single entry exactly
when these keys coincide, so fields sharing a response key but differing
in the underlying field name are left as separate entries. -/
theorem flatten_dedup_by_fieldKey (doc : QueryDocument)
    (a1 n1 x1 y1 a2 n2 x2 y2 : String) :
    flattenSelectionSet 2 doc
        [.field a1 n1 x1 y1 [], .field a2 n2 x2 y2 []] =
      some (if fieldKey a1 n1 = fieldKey a2 n2
        then [.field a1 n1 x1 y1 []]
        else [.field a1 n1 x1 y1 [], .field a2 n2 x2 y2 []]) := by
  by_cases h : fieldKey a1 n1 = fieldKey a2 n2 <;>
    simp [flattenSelectionSet, processSelection, processField, lookupField,
      updateField, mapValues, List.foldlM, h]

/-- C2 counterexample: the claim asserts that in the flattened output
every field's response key is distinct from those of its siblings.
Flattening `a: foo, a: bar` yields a selection set whose two sibling
fields share the response key `a`. -/
theorem flatten_sibling_respkey_clash_cex :
    flattenSelectionSet 2 emptyDoc
        [.field "a" "x" "" "" [], .field "a" "y" "" "" []] =
      some [.field "a" "x" "" "" [], .field "a" "y" "" "" []] ∧
    selResponseKey (.field "a" "x" "" "" []) =
      selResponseKey (.field "a" "y" "" "" []) := by
  exact ⟨rfl, rfl⟩

/-- C3: at the failing input (an operation whose only selection is a
spread of the undefined fragment `Missing`), `flatten` does not fail: it
returns a complete operation whose selection set is empty, silently
dropping the spread's contribution, contrary to the specified
deterministic failure. -/
theorem flatten_drops_unresolved_spread :
    flatten 1 ⟨[], []⟩ ⟨"query", "Q", [], [], [.fragmentSpread "Missing"], "", ""⟩ =
      some ⟨"query", "Q", [], [], [], "", ""⟩ ∧
    findFragmentDefinition ⟨[], []⟩ "Missing" = none := by
  exact ⟨rfl, rfl⟩

/-- C4: on the reference fixture (schema `Query.user(id: ID!): User`,
`User { id name }`, query `GetOrder` spreading `HeaderFragment` and
`UserFragment`, both selecting `{ id name }` on `User`), document
analysis returns exactly one record: operation `GetOrder`, raw
complexity 5 and flattened complexity 3, under the constant cost rule
`cost = childComplexity + 1`. -/
theorem analyseDocument_fixture :
    analyseDocument 6 fixtureDoc = some [⟨"GetOrder", 5, 3⟩] := by
  exact rfl

/-! ### Unfolding lemmas -/

theorem flattenSS_zero (doc : QueryDocument) (S : List Selection) :
    flattenSelectionSet 0 doc S = none := rfl

theorem flattenSS_succ (n : Nat) (doc : QueryDocument) (sels : List Selection) :
    flattenSelectionSet (n + 1) doc sels =
      (List.foldlM (flattenStep n doc) [] sels).map mapValues := rfl

theorem flattenStep_field_none (n : Nat) (doc : QueryDocument) (m : FMap)
    (a nm x y : String) (c : List Selection)
    (h : lookupField m (fieldKey a nm) = none) :
    flattenStep n doc m (.field a nm x y c) =
      (flattenSelectionSet n doc c).bind
        (fun c2 => some (m ++ [(fieldKey a nm, ⟨a, nm, x, y, c2⟩)])) := by
  simp [flattenStep, processSelection, processField, h]

theorem flattenStep_field_some (n : Nat) (doc : QueryDocument) (m : FMap)
    (a nm x y : String) (c : List Selection) (ex : FieldS)
    (h : lookupField m (fieldKey a nm) = some ex) :
    flattenStep n doc m (.field a nm x y c) =
      (flattenSelectionSet n doc (ex.selectionSet ++ c)).bind
        (fun mg => some (updateField m (fieldKey a nm)
          { ex with selectionSet := mg })) := by
  simp [flattenStep, processSelection, processField, h]

theorem flattenStep_inline (n : Nat) (doc : QueryDocument) (m : FMap)
    (tc : String) (c : List Selection) :
    flattenStep n doc m (.inlineFragment tc c) =
      (flattenSelectionSet n doc c).bind
        (fun fs => List.foldlM (fragStep n doc) m fs) := rfl

theorem flattenStep_spread_some (n : Nat) (doc : QueryDocument) (m : FMap)
    (nm : String) (fd : FragmentDefinition)
    (h : findFragmentDefinition doc nm = some fd) :
    flattenStep n doc m (.fragmentSpread nm) =
      (flattenSelectionSet n doc fd.selectionSet).bind
        (fun fs => List.foldlM (fragStep n doc) m fs) := by
  simp only [flattenStep, processSelection, h]
  rfl

theorem flattenStep_spread_none (n : Nat) (doc : QueryDocument) (m : FMap)
    (nm : String) (h : findFragmentDefinition doc nm = none) :
    flattenStep n doc m (.fragmentSpread nm) = some m := by
  simp [flattenStep, processSelection, h]

theorem fragStep_field_none (n : Nat) (doc : QueryDocument) (m : FMap)
    (a nm x y : String) (c : List Selection)
    (h : lookupField m (fieldKey a nm) = none) :
    fragStep n doc m (.field a nm x y c) =
      some (m ++ [(fieldKey a nm, ⟨a, nm, x, y, c⟩)]) := by
  simp [fragStep, foldFragField, h]

theorem fragStep_field_some (n : Nat) (doc : QueryDocument) (m : FMap)
    (a nm x y : String) (c : List Selection) (ex : FieldS)
    (h : lookupField m (fieldKey a nm) = some ex) :
    fragStep n doc m (.field a nm x y c) =
      (flattenSelectionSet n doc (ex.selectionSet ++ c)).bind
        (fun mg => some (updateField m (fieldKey a nm)
          { ex with selectionSet := mg })) := by
  simp [fragStep, foldFragField, h]

theorem fragStep_inline (n : Nat) (doc : QueryDocument) (m : FMap)
    (tc : String) (c : List Selection) :
    fragStep n doc m (.inlineFragment tc c) = some m := rfl

theorem fragStep_spread (n : Nat) (doc : QueryDocument) (m : FMap)
    (nm : String) : fragStep n doc m (.fragmentSpread nm) = some m := rfl

/-! ### Generic lemmas about Option folds and the association list -/

theorem foldlM_option_congr {α β : Type} {f g : β → α → Option β}
    {l : List α} (h : ∀ b a, a ∈ l → f b a = g b a) :
    ∀ b, List.foldlM f b l = List.foldlM g b l := by
  induction l with
  | nil => intro b; rfl
  | cons x xs ih =>
      intro b
      simp only [List.foldlM_cons]
      rw [h b x (by simp)]
      cases hg : g b x with
      | none => rfl
      | some b2 =>
          simp only [Option.bind_eq_bind, Option.some_bind]
          exact ih (fun b a ha => h b a (by simp [ha])) b2

theorem foldlM_option_mono {α β : Type} {f g : β → α → Option β}
    (h : ∀ b a r, f b a = some r → g b a = some r) :
    ∀ (l : List α) (b M : β),
      List.foldlM f b l = some M → List.foldlM g b l = some M := by
  intro l
  induction l with
  | nil => intro b M hM; exact hM
  | cons x xs ih =>
      intro b M hM
      simp only [List.foldlM_cons, Option.bind_eq_bind, Option.bind_eq_some]
        at hM ⊢
      obtain ⟨b2, hb2, hM⟩ := hM
      exact ⟨b2, h b x b2 hb2, ih b2 M hM⟩

theorem foldlM_option_inv {α β : Type} (P : β → Prop) {f : β → α → Option β}
    {l : List α} (hf : ∀ b a b2, a ∈ l → P b → f b a = some b2 → P b2) :
    ∀ (b M : β), P b → List.foldlM f b l = some M → P M := by
  induction l with
  | nil => intro b M hb hM; cases hM; exact hb
  | cons x xs ih =>
      intro b M hb hM
      simp only [List.foldlM_cons, Option.bind_eq_bind, Option.bind_eq_some]
        at hM
      obtain ⟨b2, hb2, hM⟩ := hM
      exact ih (fun b a b3 ha => hf b a b3 (List.mem_cons_of_mem _ ha)) b2 M
        (hf b x b2 (List.mem_cons_self _ _) hb hb2) hM

theorem foldlM_option_append {α β : Type} (f : β → α → Option β)
    (l1 l2 : List α) :
    ∀ b, List.foldlM f b (l1 ++ l2) =
      (List.foldlM f b l1).bind (fun m => List.foldlM f m l2) := by
  induction l1 with
  | nil => intro b; simp [List.foldlM_nil]
  | cons x xs ih =>
      intro b
      simp only [List.cons_append, List.foldlM_cons, Option.bind_eq_bind]
      cases f b x with
      | none => simp
      | some b2 => simp only [Option.some_bind]; exact ih b2

theorem lookupField_eq_none_iff (m : FMap) (k : String) :
    lookupField m k = none ↔ k ∉ keysOf m := by
  induction m with
  | nil => simp [lookupField, keysOf]
  | cons p rest ih =>
      obtain ⟨k2, f⟩ := p
      by_cases h : k2 = k
      · subst h; simp [lookupField, keysOf]
      · simp [lookupField, keysOf, h, Ne.symm h, ih]

theorem lookupField_mem {m : FMap} {k : String} {f : FieldS}
    (h : lookupField m k = some f) : (k, f) ∈ m := by
  induction m with
  | nil => simp [lookupField] at h
  | cons p rest ih =>
      obtain ⟨k2, f2⟩ := p
      simp only [lookupField] at h
      by_cases hk : k2 = k
      · rw [if_pos hk] at h
        injection h with h2
        subst hk; subst h2
        exact List.mem_cons_self _ _
      · rw [if_neg hk] at h
        exact List.mem_cons_of_mem _ (ih h)

theorem lookupField_append_left {m1 : FMap} (m2 : FMap) {k : String}
    {f : FieldS} (h : lookupField m1 k = some f) :
    lookupField (m1 ++ m2) k = some f := by
  induction m1 with
  | nil => simp [lookupField] at h
  | cons p rest ih =>
      obtain ⟨k2, f2⟩ := p
      simp only [lookupField] at h
      simp only [List.cons_append, lookupField]
      by_cases hk : k2 = k
      · rw [if_pos hk] at h ⊢; exact h
      · rw [if_neg hk] at h ⊢; exact ih h

theorem lookupField_append_right {m1 : FMap} (m2 : FMap) {k : String}
    (h : lookupField m1 k = none) :
    lookupField (m1 ++ m2) k = lookupField m2 k := by
  induction m1 with
  | nil => rfl
  | cons p rest ih =>
      obtain ⟨k2, f2⟩ := p
      simp only [lookupField] at h
      simp only [List.cons_append, lookupField]
      by_cases hk : k2 = k
      · rw [if_pos hk] at h; exact absurd h (by simp)
      · rw [if_neg hk] at h ⊢; exact ih h

theorem keysOf_append (m1 m2 : FMap) :
    keysOf (m1 ++ m2) = keysOf m1 ++ keysOf m2 := by
  simp [keysOf]

theorem keysOf_update (m : FMap) (k : String) (nf : FieldS) :
    keysOf (updateField m k nf) = keysOf m := by
  induction m with
  | nil => rfl
  | cons p rest ih =>
      obtain ⟨k2, f2⟩ := p
      simp only [updateField]
      by_cases hk : k2 = k
      · rw [if_pos hk]; rfl
      · rw [if_neg hk]
        simp only [keysOf, List.map_cons] at ih ⊢
        rw [ih]

theorem mem_updateField {m : FMap} {k : String} {nf : FieldS} {p}
    (h : p ∈ updateField m k nf) : p = (k, nf) ∨ p ∈ m := by
  induction m with
  | nil => simp [updateField] at h
  | cons q rest ih =>
      obtain ⟨k2, f2⟩ := q
      simp only [updateField] at h
      by_cases hk : k2 = k
      · rw [if_pos hk] at h
        rcases List.mem_cons.mp h with h | h
        · subst hk; exact Or.inl h
        · exact Or.inr (List.mem_cons_of_mem _ h)
      · rw [if_neg hk] at h
        rcases List.mem_cons.mp h with h | h
        · exact Or.inr (by simp [h])
        · rcases ih h with h2 | h2
          · exact Or.inl h2
          · exact Or.inr (List.mem_cons_of_mem _ h2)

/-! ### Fuel monotonicity -/

theorem processField_mono {f g : List Selection → Option (List Selection)}
    (h : ∀ S T, f S = some T → g S = some T) (m : FMap)
    (a nm x y : String) (c : List Selection) (r : FMap)
    (hr : processField f m a nm x y c = some r) :
    processField g m a nm x y c = some r := by
  cases hl : lookupField m (fieldKey a nm) with
  | some ex =>
      simp only [processField, hl, Option.bind_eq_bind, Option.bind_eq_some]
        at hr ⊢
      obtain ⟨mg, hmg, hr⟩ := hr
      exact ⟨mg, h _ _ hmg, hr⟩
  | none =>
      simp only [processField, hl, Option.bind_eq_bind, Option.bind_eq_some]
        at hr ⊢
      obtain ⟨c2, hc2, hr⟩ := hr
      exact ⟨c2, h _ _ hc2, hr⟩

theorem foldFragField_mono {f g : List Selection → Option (List Selection)}
    (h : ∀ S T, f S = some T → g S = some T) (m : FMap) (s : Selection)
    (r : FMap) (hr : foldFragField f m s = some r) :
    foldFragField g m s = some r := by
  cases s with
  | field a nm x y c =>
      cases hl : lookupField m (fieldKey a nm) with
      | some ex =>
          simp only [foldFragField, hl, Option.bind_eq_bind,
            Option.bind_eq_some] at hr ⊢
          obtain ⟨mg, hmg, hr⟩ := hr
          exact ⟨mg, h _ _ hmg, hr⟩
      | none =>
          simp only [foldFragField, hl] at hr ⊢
          exact hr
  | inlineFragment tc c => exact hr
  | fragmentSpread nm => exact hr

theorem processSelection_mono {f g : List Selection → Option (List Selection)}
    (h : ∀ S T, f S = some T → g S = some T) (doc : QueryDocument)
    (m : FMap) (s : Selection) (r : FMap)
    (hr : processSelection f doc m s = some r) :
    processSelection g doc m s = some r := by
  cases s with
  | field a nm x y c => exact processField_mono h m a nm x y c r hr
  | inlineFragment tc c =>
      simp only [processSelection, Option.bind_eq_bind, Option.bind_eq_some]
        at hr ⊢
      obtain ⟨fs, hfs, hr⟩ := hr
      exact ⟨fs, h _ _ hfs,
        foldlM_option_mono (fun b a r => foldFragField_mono h b a r) fs m r hr⟩
  | fragmentSpread nm =>
      cases hf : findFragmentDefinition doc nm with
      | some fd =>
          simp only [processSelection, hf, Option.bind_eq_bind,
            Option.bind_eq_some] at hr ⊢
          obtain ⟨fs, hfs, hr⟩ := hr
          exact ⟨fs, h _ _ hfs,
            foldlM_option_mono (fun b a r => foldFragField_mono h b a r)
              fs m r hr⟩
      | none =>
          simp only [processSelection, hf] at hr ⊢
          exact hr

theorem flatten_mono (doc : QueryDocument) :
    ∀ (n : Nat) (S T : List Selection),
      flattenSelectionSet n doc S = some T →
      flattenSelectionSet (n + 1) doc S = some T := by
  intro n
  induction n with
  | zero => intro S T h; simp [flattenSS_zero] at h
  | succ k ih =>
      intro S T h
      rw [flattenSS_succ] at h ⊢
      simp only [Option.map_eq_some'] at h ⊢
      obtain ⟨M, hM, rfl⟩ := h
      refine ⟨M, ?_, rfl⟩
      exact foldlM_option_mono
        (fun b a r hr => processSelection_mono ih doc b a r hr) S [] M hM

theorem flatten_mono_le (doc : QueryDocument) {m n : Nat} (h : m ≤ n) :
    ∀ (S T : List Selection), flattenSelectionSet m doc S = some T →
      flattenSelectionSet n doc S = some T := by
  induction n with
  | zero =>
      intro S T hS
      cases Nat.le_zero.mp h
      exact hS
  | succ k ih =>
      intro S T hS
      rcases Nat.lt_or_ge m (k + 1) with hlt | hge
      · exact flatten_mono doc k S T (ih (Nat.lt_succ_iff.mp hlt) S T hS)
      · cases Nat.le_antisymm h hge
        exact hS

/-! ### The map invariant: preservation, output shape, reconstruction -/

theorem FlatNS_nil : FlatNS [] :=
  FlatNS.mk [] (by simp) (by simp)

theorem selKey_field (a nm x y : String) (c : List Selection) :
    selKey (Selection.field a nm x y c) = fieldKey a nm := rfl

theorem mapValues_cons (p : String × FieldS) (m : FMap) :
    mapValues (p :: m) =
      Selection.field p.2.falias p.2.name p.2.arguments p.2.directives
        p.2.selectionSet :: mapValues m := rfl

theorem MapOK_nil (n : Nat) (doc : QueryDocument) : MapOK n doc [] :=
  ⟨by simp [keysOf], by simp⟩

theorem keysOf_mapValues {n : Nat} {doc : QueryDocument} {M : FMap}
    (h : MapOK n doc M) : (mapValues M).map selKey = keysOf M := by
  unfold mapValues keysOf
  rw [List.map_map]
  exact List.map_congr_left (fun p hp => ((h.2 p hp).1).symm)

theorem flatNS_mapValues {n : Nat} {doc : QueryDocument} {M : FMap}
    (h : MapOK n doc M) : FlatNS (mapValues M) := by
  refine FlatNS.mk _ (fun s hs => ?_) ?_
  · obtain ⟨p, hp, rfl⟩ := List.mem_map.mp hs
    exact FlatSel.field _ _ _ _ _ (h.2 p hp).2.2
  · rw [keysOf_mapValues h]
    exact h.1

theorem flatOutOK_mapValues {n : Nat} {doc : QueryDocument} {M : FMap}
    (h : MapOK n doc M) : FlatOutOK n doc (mapValues M) := by
  intro s hs
  obtain ⟨p, hp, rfl⟩ := List.mem_map.mp hs
  exact ⟨_, _, _, _, _, rfl, (h.2 p hp).2.1, (h.2 p hp).2.2⟩

theorem FlatOutOK_mono {n : Nat} {doc : QueryDocument} {sels : List Selection}
    (h : FlatOutOK n doc sels) : FlatOutOK (n + 1) doc sels := by
  intro s hs
  obtain ⟨a, nm, x, y, c, h1, h2, h3⟩ := h s hs
  exact ⟨a, nm, x, y, c, h1, flatten_mono doc n c c h2, h3⟩

theorem FlatOutOK_mono_le {m n : Nat} {doc : QueryDocument}
    {sels : List Selection} (hle : m ≤ n) (h : FlatOutOK m doc sels) :
    FlatOutOK n doc sels := by
  intro s hs
  obtain ⟨a, nm, x, y, c, h1, h2, h3⟩ := h s hs
  exact ⟨a, nm, x, y, c, h1, flatten_mono_le doc hle c c h2, h3⟩

/-- Reprocessing the values of an invariant-satisfying map appended after
`m0` rebuilds exactly that map: each value is a fresh field (its key is
absent from `m0` and from the earlier values), and its children are a
flattening fixed point, so the fresh-insert path reproduces the entry. -/
theorem flatten_recon (k : Nat) (doc : QueryDocument) :
    ∀ (M2 m0 : FMap), MapOK k doc (m0 ++ M2) →
      List.foldlM (flattenStep k doc) m0 (mapValues M2) = some (m0 ++ M2) := by
  intro M2
  induction M2 with
  | nil => intro m0 h; simp [mapValues, List.foldlM_nil]
  | cons p M2 ih =>
      intro m0 h
      obtain ⟨key, f⟩ := p
      have hmem : (key, f) ∈ m0 ++ (key, f) :: M2 := by simp
      have hkey : key = fieldKey f.falias f.name := (h.2 _ hmem).1
      have hstab : flattenSelectionSet k doc f.selectionSet =
          some f.selectionSet := (h.2 _ hmem).2.1
      have hnotin : key ∉ keysOf m0 := by
        have := h.1
        rw [keysOf_append] at this
        have h2 := (List.nodup_append.mp this).2.2
        intro hmem2
        exact h2 hmem2 (by simp [keysOf])
      rw [mapValues_cons, List.foldlM_cons]
      have hstep : flattenStep k doc m0
          (Selection.field f.falias f.name f.arguments f.directives
            f.selectionSet) = some (m0 ++ [(key, f)]) := by
        rw [flattenStep_field_none k doc m0 _ _ _ _ _
          (by rw [← hkey]; exact (lookupField_eq_none_iff m0 key).mpr hnotin)]
        rw [hstab]
        simp only [Option.some_bind, Option.some.injEq]
        rw [← hkey]
      rw [hstep]
      simp only [Option.bind_eq_bind, Option.some_bind]
      have hassoc : (m0 ++ [(key, f)]) ++ M2 = m0 ++ (key, f) :: M2 := by
        simp
      rw [show m0 ++ (key, f) :: M2 = (m0 ++ [(key, f)]) ++ M2 from
        hassoc.symm] at h ⊢
      exact ih (m0 ++ [(key, f)]) h

theorem flatOutOK_fragArg {n : Nat} {doc : QueryDocument}
    {fs : List Selection} (h : FlatOutOK n doc fs) {s : Selection}
    (hs : s ∈ fs) : FragArgOK n doc s := by
  obtain ⟨a, nm, x, y, c, rfl, h1, h2⟩ := h s hs
  exact ⟨h1, h2⟩

/-- Inserting a fresh entry with stable, well-formed children preserves
the map invariant. -/
theorem MapOK_insert {n : Nat} {doc : QueryDocument} {m : FMap}
    (a nm x y : String) (c : List Selection) (hm : MapOK n doc m)
    (hl : lookupField m (fieldKey a nm) = none)
    (hcstab : flattenSelectionSet n doc c = some c) (hcNS : FlatNS c) :
    MapOK n doc (m ++ [(fieldKey a nm, ⟨a, nm, x, y, c⟩)]) := by
  constructor
  · rw [keysOf_append, List.nodup_append]
    refine ⟨hm.1, by simp [keysOf], ?_⟩
    intro kk hkk hkk2
    simp [keysOf] at hkk2
    subst hkk2
    exact (lookupField_eq_none_iff m _).mp hl hkk
  · intro p hp
    rcases List.mem_append.mp hp with hp | hp
    · exact hm.2 p hp
    · simp only [List.mem_singleton] at hp
      subst hp
      exact ⟨rfl, hcstab, hcNS⟩

/-- Replacing an existing entry's children by stable, well-formed ones
preserves the map invariant. -/
theorem MapOK_update {n : Nat} {doc : QueryDocument} {m : FMap}
    (a nm : String) (ex : FieldS) (mg : List Selection) (hm : MapOK n doc m)
    (hl : lookupField m (fieldKey a nm) = some ex)
    (hmgstab : flattenSelectionSet n doc mg = some mg) (hmgNS : FlatNS mg) :
    MapOK n doc (updateField m (fieldKey a nm)
      { ex with selectionSet := mg }) := by
  have hexprop := hm.2 _ (lookupField_mem hl)
  constructor
  · rw [keysOf_update]; exact hm.1
  · intro p hp
    rcases mem_updateField hp with hp2 | hp2
    · subst hp2
      exact ⟨hexprop.1, hmgstab, hmgNS⟩
    · exact hm.2 p hp2

/-- The main loop invariant bundle, by strong induction on fuel: one loop
iteration and one inner fragment-fold iteration preserve `MapOK`; every
successful flattening yields a well-formed output whose fields are
flattening fixed points; and every output is itself a fixed point. -/
theorem flatten_inv_bundle (doc : QueryDocument) :
    ∀ n : Nat,
      (∀ (m : FMap) (s : Selection) (M : FMap), MapOK n doc m →
        flattenStep n doc m s = some M → MapOK n doc M) ∧
      (∀ (m : FMap) (s : Selection) (M : FMap), MapOK n doc m →
        FragArgOK n doc s → fragStep n doc m s = some M → MapOK n doc M) ∧
      (∀ (Z T : List Selection), flattenSelectionSet n doc Z = some T →
        FlatOutOK n doc T ∧ FlatNS T) ∧
      (∀ (S T : List Selection), flattenSelectionSet n doc S = some T →
        flattenSelectionSet n doc T = some T) := by
  intro n
  induction n using Nat.strong_induction_on with
  | _ n ih =>
  have hfold : ∀ k, k < n → ∀ (S : List Selection) (m M : FMap),
      MapOK k doc m → List.foldlM (flattenStep k doc) m S = some M →
      MapOK k doc M := by
    intro k hk S m M hm hf
    exact foldlM_option_inv (MapOK k doc)
      (fun b a b2 _ hb hstep => (ih k hk).1 b a b2 hb hstep) m M hm hf
  have hout : ∀ j, j ≤ n → ∀ (Z T : List Selection),
      flattenSelectionSet j doc Z = some T →
      FlatOutOK j doc T ∧ FlatNS T := by
    intro j hj Z T hZ
    match j, hj, hZ with
    | 0, _, hZ => simp [flattenSS_zero] at hZ
    | (k+1), hj, hZ =>
        rw [flattenSS_succ, Option.map_eq_some'] at hZ
        obtain ⟨M, hM, rfl⟩ := hZ
        have hMOK : MapOK k doc M :=
          hfold k (Nat.lt_of_succ_le hj) Z [] M (MapOK_nil k doc) hM
        exact ⟨FlatOutOK_mono (flatOutOK_mapValues hMOK),
          flatNS_mapValues hMOK⟩
  have hstab : ∀ j, j ≤ n → ∀ (S T : List Selection),
      flattenSelectionSet j doc S = some T →
      flattenSelectionSet j doc T = some T := by
    intro j hj S T hS
    match j, hj, hS with
    | 0, _, hS => simp [flattenSS_zero] at hS
    | (k+1), hj, hS =>
        rw [flattenSS_succ, Option.map_eq_some'] at hS
        obtain ⟨M, hM, rfl⟩ := hS
        have hMOK : MapOK k doc M :=
          hfold k (Nat.lt_of_succ_le hj) S [] M (MapOK_nil k doc) hM
        rw [flattenSS_succ]
        rw [show List.foldlM (flattenStep k doc) [] (mapValues M) = some M
          from flatten_recon k doc M [] hMOK]
        rfl
  have hfrag : ∀ (m : FMap) (s : Selection) (M : FMap), MapOK n doc m →
      FragArgOK n doc s → fragStep n doc m s = some M → MapOK n doc M := by
    intro m s M hm harg hs
    cases s with
    | inlineFragment tc c =>
        rw [fragStep_inline] at hs; cases hs; exact hm
    | fragmentSpread nm =>
        rw [fragStep_spread] at hs; cases hs; exact hm
    | field a nm x y c =>
        obtain ⟨hcstab, hcNS⟩ := harg
        cases hl : lookupField m (fieldKey a nm) with
        | none =>
            rw [fragStep_field_none n doc m a nm x y c hl] at hs
            cases hs
            exact MapOK_insert a nm x y c hm hl hcstab hcNS
        | some ex =>
            rw [fragStep_field_some n doc m a nm x y c ex hl,
              Option.bind_eq_some] at hs
            obtain ⟨mg, hmg, hM⟩ := hs
            simp only [Option.some.injEq] at hM
            subst hM
            exact MapOK_update a nm ex mg hm hl
              (hstab n (le_refl n) _ mg hmg)
              (hout n (le_refl n) _ mg hmg).2
  have hstep : ∀ (m : FMap) (s : Selection) (M : FMap), MapOK n doc m →
      flattenStep n doc m s = some M → MapOK n doc M := by
    intro m s M hm hs
    cases s with
    | field a nm x y c =>
        cases hl : lookupField m (fieldKey a nm) with
        | none =>
            rw [flattenStep_field_none n doc m a nm x y c hl,
              Option.bind_eq_some] at hs
            obtain ⟨c2, hc2, hM⟩ := hs
            simp only [Option.some.injEq] at hM
            subst hM
            exact MapOK_insert a nm x y c2 hm hl
              (hstab n (le_refl n) c c2 hc2)
              (hout n (le_refl n) c c2 hc2).2
        | some ex =>
            rw [flattenStep_field_some n doc m a nm x y c ex hl,
              Option.bind_eq_some] at hs
            obtain ⟨mg, hmg, hM⟩ := hs
            simp only [Option.some.injEq] at hM
            subst hM
            exact MapOK_update a nm ex mg hm hl
              (hstab n (le_refl n) _ mg hmg)
              (hout n (le_refl n) _ mg hmg).2
    | inlineFragment tc c =>
        rw [flattenStep_inline, Option.bind_eq_some] at hs
        obtain ⟨fs, hfs, hfold2⟩ := hs
        have hfsOK : FlatOutOK n doc fs := (hout n (le_refl n) c fs hfs).1
        exact foldlM_option_inv (MapOK n doc)
          (fun b a b2 ha hb hstep2 =>
            hfrag b a b2 hb (flatOutOK_fragArg hfsOK ha) hstep2)
          m M hm hfold2
    | fragmentSpread nm =>
        cases hf : findFragmentDefinition doc nm with
        | some fd =>
            rw [flattenStep_spread_some n doc m nm fd hf,
              Option.bind_eq_some] at hs
            obtain ⟨fs, hfs, hfold2⟩ := hs
            have hfsOK : FlatOutOK n doc fs :=
              (hout n (le_refl n) fd.selectionSet fs hfs).1
            exact foldlM_option_inv (MapOK n doc)
              (fun b a b2 ha hb hstep2 =>
                hfrag b a b2 hb (flatOutOK_fragArg hfsOK ha) hstep2)
              m M hm hfold2
        | none =>
            rw [flattenStep_spread_none n doc m nm hf] at hs
            cases hs; exact hm
  exact ⟨hstep, hfrag, hout n (le_refl n), hstab n (le_refl n)⟩

/-- Unpack a successful flattening into its internal invariant-satisfying
association list. -/
theorem flatten_fold_mapOK (doc : QueryDocument) (k : Nat)
    (S T : List Selection)
    (h : flattenSelectionSet (k + 1) doc S = some T) :
    ∃ M, List.foldlM (flattenStep k doc) [] S = some M ∧ MapOK k doc M ∧
      T = mapValues M := by
  rw [flattenSS_succ, Option.map_eq_some'] at h
  obtain ⟨M, hM, rfl⟩ := h
  refine ⟨M, hM, ?_, rfl⟩
  exact foldlM_option_inv (MapOK k doc)
    (fun b a b2 _ hb hs => (flatten_inv_bundle doc k).1 b a b2 hb hs)
    [] M (MapOK_nil k doc) hM

/-- C2 (amended): every successfully flattened selection set contains
only fields, with pairwise-distinct deduplication keys
(`fieldKey`: the name, or `alias:name` when aliased) at every nesting
level.  (Distinctness of response keys can fail, see the
counterexample.) -/
theorem flatten_output_flat_wf (n : Nat) (doc : QueryDocument)
    (S T : List Selection) (h : flattenSelectionSet n doc S = some T) :
    FlatNS T :=
  ((flatten_inv_bundle doc n).2.2.1 S T h).2

/-- Witness for the amended C2 theorem at the reference fixture. -/
theorem flatten_output_flat_wf_witness :
    FlatNS [Selection.field "user" "user" "id: $id" "" [idSel, nameSel]] :=
  flatten_output_flat_wf 6 fixtureDoc [userSel]
    [Selection.field "user" "user" "id: $id" "" [idSel, nameSel]] rfl

/-- C6: the merge is idempotent — flattening an already-flattened
selection set reproduces it exactly (hence also as a multiset of response
keys with recursively equal children, the comparison the claim asks
for). -/
theorem flatten_idempotent (n : Nat) (doc : QueryDocument)
    (S T : List Selection) (h : flattenSelectionSet n doc S = some T) :
    flattenSelectionSet n doc T = some T :=
  (flatten_inv_bundle doc n).2.2.2 S T h

/-- Witness for C6 on a selection set with duplicates at two levels. -/
theorem flatten_idempotent_witness :
    flattenSelectionSet 3 fixtureDoc
      [Selection.field "a" "a" "" "" [idSel, nameSel]] =
    some [Selection.field "a" "a" "" "" [idSel, nameSel]] :=
  flatten_idempotent 3 fixtureDoc
    [.field "a" "a" "" "" [idSel, idSel], .field "a" "a" "" "" [nameSel]]
    [.field "a" "a" "" "" [idSel, nameSel]] rfl

/-- Merging a flattened set followed by more selections is the same as
merging the original set followed by them: reprocessing the flattened
prefix rebuilds the same internal map. -/
theorem flatten_absorb (doc : QueryDocument) (k : Nat)
    (X X2 Y : List Selection)
    (h : flattenSelectionSet (k + 1) doc X = some X2) :
    flattenSelectionSet (k + 1) doc (X2 ++ Y) =
      flattenSelectionSet (k + 1) doc (X ++ Y) := by
  obtain ⟨M, hM, hMOK, rfl⟩ := flatten_fold_mapOK doc k X X2 h
  rw [flattenSS_succ, flattenSS_succ, foldlM_option_append,
    foldlM_option_append, hM,
    show List.foldlM (flattenStep k doc) [] (mapValues M) = some M from
      flatten_recon k doc M [] hMOK]

/-- C5: when the second of two sibling fields hits the map entry created
by the first, the resulting entry keeps the first field's alias, name and
payload, and its children are exactly the recursive merge of the
concatenation of both contributors' original (unmerged) nested
selections — even though the code concatenates the already-merged
children of the existing entry, the result coincides with merging the
originals, so duplicate grandchildren are deduplicated. -/
theorem flatten_merge_children_eq_merge_concat
    (n : Nat) (doc : QueryDocument) (a nm x1 y1 x2 y2 : String)
    (c1 c2 out : List Selection)
    (h : flattenSelectionSet n doc
      [.field a nm x1 y1 c1, .field a nm x2 y2 c2] = some out) :
    ∃ C, flattenSelectionSet n doc (c1 ++ c2) = some C ∧
      out = [Selection.field a nm x1 y1 C] := by
  cases n with
  | zero => simp [flattenSS_zero] at h
  | succ k =>
      rw [flattenSS_succ, Option.map_eq_some'] at h
      obtain ⟨M, hM, rfl⟩ := h
      simp only [List.foldlM_cons, List.foldlM_nil, Option.bind_eq_bind,
        Option.bind_eq_some] at hM
      obtain ⟨m1, hm1, m2, hm2, hM2⟩ := hM
      simp only [Option.pure_def, Option.some.injEq] at hM2
      subst hM2
      rw [flattenStep_field_none k doc [] a nm x1 y1 c1 rfl,
        Option.bind_eq_some] at hm1
      obtain ⟨c1p, hc1, hm1e⟩ := hm1
      simp only [Option.some.injEq, List.nil_append] at hm1e
      subst hm1e
      have hl2 : lookupField [(fieldKey a nm, ⟨a, nm, x1, y1, c1p⟩)]
          (fieldKey a nm) = some ⟨a, nm, x1, y1, c1p⟩ := by
        simp [lookupField]
      rw [flattenStep_field_some k doc _ a nm x2 y2 c2 _ hl2,
        Option.bind_eq_some] at hm2
      obtain ⟨mg, hmg, hm2e⟩ := hm2
      simp only [Option.some.injEq] at hm2e
      subst hm2e
      cases k with
      | zero => simp [flattenSS_zero] at hc1
      | succ j =>
          refine ⟨mg, ?_, ?_⟩
          · refine flatten_mono doc (j + 1) _ mg ?_
            rw [← flatten_absorb doc j c1 c1p c2 hc1]
            exact hmg
          · simp [mapValues, updateField]

/-- Processing an already-flattened selection list through the main loop
is the same as processing it through the inner fragment-field loop: the
fresh-insert path re-flattens children, which is the identity on a
flattening fixed point, and the merge paths are syntactically the same. -/
theorem fold_step_eq_fragStep (n : Nat) (doc : QueryDocument)
    (X : List Selection) (hX : FlatOutOK n doc X) :
    ∀ m, List.foldlM (flattenStep n doc) m X =
      List.foldlM (fragStep n doc) m X := by
  apply foldlM_option_congr
  intro b s hs
  obtain ⟨aa, nn, xx, yy, cc, rfl, hstab2, hNS⟩ := hX s hs
  cases hl : lookupField b (fieldKey aa nn) with
  | some ex =>
      rw [flattenStep_field_some n doc b aa nn xx yy cc ex hl,
        fragStep_field_some n doc b aa nn xx yy cc ex hl]
  | none =>
      rw [flattenStep_field_none n doc b aa nn xx yy cc hl,
        fragStep_field_none n doc b aa nn xx yy cc hl, hstab2]
      rfl

/-- C7: replacing one Inline Fragment (or one resolvable Fragment
Spread) by its recursively flattened contents and merging again yields
exactly the same flattened result as merging the original selection
set. -/
theorem flatten_fragment_transparent (n : Nat) (doc : QueryDocument)
    (A B C X T : List Selection) (sel : Selection) (tc nm : String)
    (fd : FragmentDefinition)
    (hsel : sel = Selection.inlineFragment tc C ∨
      (sel = Selection.fragmentSpread nm ∧
        findFragmentDefinition doc nm = some fd ∧ fd.selectionSet = C))
    (hC : flattenSelectionSet n doc C = some X)
    (hT : flattenSelectionSet (n + 1) doc (A ++ sel :: B) = some T) :
    flattenSelectionSet (n + 1) doc (A ++ (X ++ B)) = some T := by
  rw [flattenSS_succ, Option.map_eq_some'] at hT
  obtain ⟨M, hM, rfl⟩ := hT
  rw [flattenSS_succ]
  suffices hMeq : List.foldlM (flattenStep n doc) [] (A ++ (X ++ B)) =
      some M by rw [hMeq]; rfl
  rw [foldlM_option_append] at hM
  rw [Option.bind_eq_some] at hM
  obtain ⟨mA, hmA, hrest⟩ := hM
  rw [List.foldlM_cons] at hrest
  simp only [Option.bind_eq_bind, Option.bind_eq_some] at hrest
  obtain ⟨m2, hm2, hB⟩ := hrest
  have hm2e : List.foldlM (fragStep n doc) mA X = some m2 := by
    rcases hsel with rfl | ⟨rfl, hfind, hCfd⟩
    · rw [flattenStep_inline, hC] at hm2
      simpa using hm2
    · rw [flattenStep_spread_some n doc mA nm fd hfind, hCfd, hC] at hm2
      simpa using hm2
  have hXOK : FlatOutOK n doc X :=
    ((flatten_inv_bundle doc n).2.2.1 C X hC).1
  rw [foldlM_option_append, hmA]
  simp only [Option.some_bind]
  rw [foldlM_option_append, fold_step_eq_fragStep n doc X hXOK mA, hm2e]
  simpa using hB

/-- Witness for C7: spreading `HeaderFragment` next to a plain `name`
field gives the same flattened result as inlining its flattened body. -/
theorem flatten_fragment_transparent_witness :
    flattenSelectionSet 3 fixtureDoc ([] ++ ([idSel, nameSel] ++ [nameSel])) =
      some [idSel, nameSel] :=
  flatten_fragment_transparent 2 fixtureDoc [] [nameSel] [idSel, nameSel]
    [idSel, nameSel] [idSel, nameSel] (.fragmentSpread "HeaderFragment")
    "" "HeaderFragment" headerFragment
    (Or.inr ⟨rfl, rfl, rfl⟩) rfl rfl

/-! ### Type-condition independence (claim C9) -/

theorem stripList_append (A B : List Selection) :
    stripList (A ++ B) = stripList A ++ stripList B := by
  induction A with
  | nil => rfl
  | cons s rest ih => simp [stripList, ih]

theorem stripList_flatNS_size :
    ∀ (k : Nat) (X : List Selection), sizeOf X ≤ k → FlatNS X →
      stripList X = X := by
  intro k
  induction k with
  | zero =>
      intro X hX _
      cases X with
      | nil => rfl
      | cons s rest => simp at hX
  | succ k ih =>
      intro X hX hNS
      cases hNS with
      | mk _ hf hk =>
          cases X with
          | nil => rfl
          | cons s rest =>
              have hs := hf s (by simp)
              cases hs with
              | field a n x y c hc =>
                  have hc_size : sizeOf c ≤ k := by simp at hX; omega
                  have hrest_size : sizeOf rest ≤ k := by simp at hX; omega
                  have hrestNS : FlatNS rest :=
                    FlatNS.mk rest (fun t ht => hf t (List.mem_cons_of_mem _ ht))
                      (by simpa using List.Nodup.of_cons (by simpa using hk))
                  show stripSel (Selection.field a n x y c) :: stripList rest =
                    _
                  rw [show stripSel (Selection.field a n x y c) =
                    Selection.field a n x y (stripList c) from rfl]
                  rw [ih c hc_size hc, ih rest hrest_size hrestNS]

theorem stripList_flat {X : List Selection} (h : FlatNS X) :
    stripList X = X :=
  stripList_flatNS_size (sizeOf X) X le_rfl h

theorem findFrag_strip (fds : List FragmentDefinition) (nm : String) :
    findFrag (fds.map stripFrag) nm = (findFrag fds nm).map stripFrag := by
  induction fds with
  | nil => rfl
  | cons fd rest ih =>
      by_cases h : fd.name = nm <;> simp [findFrag, stripFrag, h, ih]

theorem findFragmentDefinition_strip (doc : QueryDocument) (nm : String) :
    findFragmentDefinition (stripDoc doc) nm =
      (findFragmentDefinition doc nm).map stripFrag := by
  simp only [findFragmentDefinition, stripDoc]
  exact findFrag_strip doc.fragments nm

/-- Flattening is blind to inline-fragment type conditions: erasing all
of them (in the selection set and in the document) does not change the
result. -/
theorem flatten_strip (doc : QueryDocument) :
    ∀ (n : Nat) (S : List Selection),
      flattenSelectionSet n (stripDoc doc) (stripList S) =
        flattenSelectionSet n doc S := by
  intro n
  induction n with
  | zero => intro S; rfl
  | succ k ih =>
      have hfragfold : ∀ (fs : List Selection) (m : FMap), MapOK k doc m →
          FlatOutOK k doc fs →
          List.foldlM (fragStep k (stripDoc doc)) m fs =
            List.foldlM (fragStep k doc) m fs := by
        intro fs
        induction fs with
        | nil => intro m _ _; rfl
        | cons s rest ihf =>
            intro m hm hOK
            obtain ⟨a, nm, x, y, c, rfl, hcstab, hcNS⟩ := hOK s (by simp)
            rw [List.foldlM_cons, List.foldlM_cons]
            have hstepeq : fragStep k (stripDoc doc) m (.field a nm x y c) =
                fragStep k doc m (.field a nm x y c) := by
              cases hl : lookupField m (fieldKey a nm) with
              | none =>
                  rw [fragStep_field_none _ _ _ _ _ _ _ _ hl,
                    fragStep_field_none _ _ _ _ _ _ _ _ hl]
              | some ex =>
                  rw [fragStep_field_some _ _ _ _ _ _ _ _ _ hl,
                    fragStep_field_some _ _ _ _ _ _ _ _ _ hl]
                  have hex : FlatNS ex.selectionSet :=
                    (hm.2 _ (lookupField_mem hl)).2.2
                  rw [show ex.selectionSet ++ c =
                    stripList (ex.selectionSet ++ c) from by
                      rw [stripList_append, stripList_flat hex,
                        stripList_flat hcNS]]
                  rw [ih (ex.selectionSet ++ c)]
                  rw [stripList_append, stripList_flat hex,
                    stripList_flat hcNS]
            rw [hstepeq]
            cases hs2 : fragStep k doc m (.field a nm x y c) with
            | none => rfl
            | some m2 =>
                simp only [Option.bind_eq_bind, Option.some_bind]
                exact ihf m2
                  ((flatten_inv_bundle doc k).2.1 m (.field a nm x y c) m2 hm
                    ⟨hcstab, hcNS⟩ hs2)
                  (fun t ht => hOK t (List.mem_cons_of_mem _ ht))
      have hfold : ∀ (S : List Selection) (m : FMap), MapOK k doc m →
          List.foldlM (flattenStep k (stripDoc doc)) m (stripList S) =
            List.foldlM (flattenStep k doc) m S := by
        intro S
        induction S with
        | nil => intro m _; rfl
        | cons s rest ihS =>
            intro m hm
            rw [show stripList (s :: rest) = stripSel s :: stripList rest
              from rfl]
            rw [List.foldlM_cons, List.foldlM_cons]
            have hstepeq : flattenStep k (stripDoc doc) m (stripSel s) =
                flattenStep k doc m s := by
              cases s with
              | field a nm x y c =>
                  rw [show stripSel (.field a nm x y c) =
                    .field a nm x y (stripList c) from rfl]
                  cases hl : lookupField m (fieldKey a nm) with
                  | none =>
                      rw [flattenStep_field_none _ _ _ _ _ _ _ _ hl,
                        flattenStep_field_none _ _ _ _ _ _ _ _ hl, ih c]
                  | some ex =>
                      rw [flattenStep_field_some _ _ _ _ _ _ _ _ _ hl,
                        flattenStep_field_some _ _ _ _ _ _ _ _ _ hl]
                      have hex : FlatNS ex.selectionSet :=
                        (hm.2 _ (lookupField_mem hl)).2.2
                      rw [show ex.selectionSet ++ stripList c =
                        stripList (ex.selectionSet ++ c) from by
                          rw [stripList_append, stripList_flat hex]]
                      rw [ih (ex.selectionSet ++ c)]
              | inlineFragment tc c =>
                  rw [show stripSel (.inlineFragment tc c) =
                    .inlineFragment "" (stripList c) from rfl]
                  rw [flattenStep_inline, flattenStep_inline, ih c]
                  cases hfs : flattenSelectionSet k doc c with
                  | none => rfl
                  | some fs =>
                      simp only [Option.some_bind]
                      exact hfragfold fs m hm
                        ((flatten_inv_bundle doc k).2.2.1 c fs hfs).1
              | fragmentSpread nm =>
                  rw [show stripSel (.fragmentSpread nm) =
                    .fragmentSpread nm from rfl]
                  cases hf : findFragmentDefinition doc nm with
                  | none =>
                      have hf2 : findFragmentDefinition (stripDoc doc) nm =
                          none := by
                        rw [findFragmentDefinition_strip, hf]; rfl
                      rw [flattenStep_spread_none _ _ _ _ hf2,
                        flattenStep_spread_none _ _ _ _ hf]
                  | some fd =>
                      have hf2 : findFragmentDefinition (stripDoc doc) nm =
                          some (stripFrag fd) := by
                        rw [findFragmentDefinition_strip, hf]; rfl
                      rw [flattenStep_spread_some _ _ _ _ _ hf2,
                        flattenStep_spread_some _ _ _ _ _ hf]
                      rw [show (stripFrag fd).selectionSet =
                        stripList fd.selectionSet from rfl, ih fd.selectionSet]
                      cases hfs : flattenSelectionSet k doc fd.selectionSet with
                      | none => rfl
                      | some fs =>
                          simp only [Option.some_bind]
                          exact hfragfold fs m hm
                            ((flatten_inv_bundle doc k).2.2.1 _ fs hfs).1
            rw [hstepeq]
            cases hs2 : flattenStep k doc m s with
            | none => rfl
            | some m2 =>
                simp only [Option.bind_eq_bind, Option.some_bind]
                exact ihS m2 ((flatten_inv_bundle doc k).1 m s m2 hm hs2)
      intro S
      rw [flattenSS_succ, flattenSS_succ, hfold S [] (MapOK_nil k doc)]

/-- C9: the merge result does not depend on inline-fragment type
conditions — any two selection-set/document inputs that agree after
erasing every inline-fragment type condition flatten identically. -/
theorem flatten_ignores_type_conditions (n : Nat)
    (d1 d2 : QueryDocument) (S1 S2 : List Selection)
    (hd : stripDoc d1 = stripDoc d2) (hs : stripList S1 = stripList S2) :
    flattenSelectionSet n d1 S1 = flattenSelectionSet n d2 S2 := by
  rw [← flatten_strip d1 n S1, ← flatten_strip d2 n S2, hd, hs]

/-- Witness for C9: inline fragments with type conditions `User` and
`Other` flatten identically. -/
theorem flatten_ignores_type_conditions_witness :
    flattenSelectionSet 2 emptyDoc [.inlineFragment "User" [idSel]] =
      flattenSelectionSet 2 emptyDoc [.inlineFragment "Other" [idSel]] :=
  flatten_ignores_type_conditions 2 emptyDoc emptyDoc
    [.inlineFragment "User" [idSel]] [.inlineFragment "Other" [idSel]]
    rfl rfl

/-! ### Termination under acyclicity (claim C10) -/

theorem weightL_nil (env : List FragmentDefinition) : weightL env [] = 0 := by
  simp [weightL]

theorem weightL_cons (env : List FragmentDefinition) (s : Selection)
    (rest : List Selection) :
    weightL env (s :: rest) = weightS env s + weightL env rest := by
  simp [weightL]

theorem weightS_field (env : List FragmentDefinition) (a n x y : String)
    (c : List Selection) :
    weightS env (.field a n x y c) = 1 + weightL env c := by
  simp [weightS]

theorem weightS_inline (env : List FragmentDefinition) (tc : String)
    (c : List Selection) :
    weightS env (.inlineFragment tc c) = 1 + weightL env c := by
  simp [weightS]

theorem weightS_pos : ∀ (env : List FragmentDefinition) (s : Selection),
    1 ≤ weightS env s := by
  intro env
  induction env with
  | nil =>
      intro s
      cases s <;> simp [weightS]
  | cons fd rest ih =>
      intro s
      cases s with
      | field a n x y c => simp [weightS]
      | inlineFragment tc c => simp [weightS]
      | fragmentSpread nm =>
          by_cases h : fd.name = nm
          · simp [weightS, h]
          · rw [show weightS (fd :: rest) (.fragmentSpread nm) =
              weightS rest (.fragmentSpread nm) from by simp [weightS, h]]
            exact ih _

theorem findTopo_weightS :
    ∀ (env : List FragmentDefinition) (nm : String)
      (rest : List FragmentDefinition) (fd : FragmentDefinition),
      findTopo env nm = some (rest, fd) →
      weightS env (.fragmentSpread nm) = 1 + weightL rest fd.selectionSet := by
  intro env
  induction env with
  | nil => intro nm rest fd h; simp [findTopo] at h
  | cons fd2 tail ih =>
      intro nm rest fd h
      simp only [findTopo] at h
      by_cases h2 : fd2.name = nm
      · rw [if_pos h2] at h
        injection h with h3
        injection h3 with h4 h5
        subst h4; subst h5
        simp [weightS, h2]
      · rw [if_neg h2] at h
        rw [show weightS (fd2 :: tail) (.fragmentSpread nm) =
          weightS tail (.fragmentSpread nm) from by simp [weightS, h2]]
        exact ih nm rest fd h

theorem weightL_append (env : List FragmentDefinition) :
    ∀ (A B : List Selection),
      weightL env (A ++ B) = weightL env A + weightL env B := by
  intro A B
  induction A with
  | nil => simp [weightL]
  | cons s rest ih =>
      simp only [List.cons_append, weightL_cons, ih]
      omega

theorem FlatNS_tail {s : Selection} {rest : List Selection}
    (h : FlatNS (s :: rest)) : FlatNS rest := by
  cases h with
  | mk _ hf hk =>
      refine FlatNS.mk rest (fun t ht => hf t (List.mem_cons_of_mem _ ht)) ?_
      simp only [List.map_cons] at hk
      exact hk.of_cons

theorem FlatNS_head {s : Selection} {rest : List Selection}
    (h : FlatNS (s :: rest)) :
    ∃ a n x y c, s = Selection.field a n x y c ∧ FlatNS c := by
  cases h with
  | mk _ hf _ =>
      cases hf s (by simp) with
      | field a n x y c hc => exact ⟨a, n, x, y, c, rfl, hc⟩

theorem weightL_flat_size :
    ∀ (k : Nat) (X : List Selection), sizeOf X ≤ k → FlatNS X →
      ∀ (e1 e2 : List FragmentDefinition), weightL e1 X = weightL e2 X := by
  intro k
  induction k with
  | zero =>
      intro X hX _
      cases X with
      | nil => intro e1 e2; simp [weightL]
      | cons s rest => simp at hX
  | succ k ih =>
      intro X hX hNS e1 e2
      cases X with
      | nil => simp [weightL]
      | cons s rest =>
          obtain ⟨a, n, x, y, c, rfl, hc⟩ := FlatNS_head hNS
          have hc_size : sizeOf c ≤ k := by simp at hX; omega
          have hrest_size : sizeOf rest ≤ k := by simp at hX; omega
          rw [weightL_cons, weightL_cons, weightS_field, weightS_field,
            ih c hc_size hc e1 e2, ih rest hrest_size (FlatNS_tail hNS) e1 e2]

theorem weightL_flat {X : List Selection} (h : FlatNS X)
    (e1 e2 : List FragmentDefinition) : weightL e1 X = weightL e2 X :=
  weightL_flat_size (sizeOf X) X le_rfl h e1 e2

theorem envOK_flatSel (doc : QueryDocument) :
    ∀ (k : Nat) (s : Selection), sizeOf s ≤ k → FlatSel s →
      ∀ (env : List FragmentDefinition), EnvOKSel doc env s := by
  intro k
  induction k with
  | zero =>
      intro s hs hFS env
      cases hFS with
      | field a n x y c hc => simp at hs
  | succ k ih =>
      intro s hs hFS env
      cases hFS with
      | field a n x y c hc =>
          refine EnvOKSel.field env a n x y c (fun t ht => ?_)
          have h1 : sizeOf t < sizeOf c := List.sizeOf_lt_of_mem ht
          have h2 : sizeOf t ≤ k := by simp at hs; omega
          cases hc with
          | mk _ hf _ => exact ih t h2 (hf t ht) env

theorem envOK_flat (doc : QueryDocument) {X : List Selection}
    (h : FlatNS X) (env : List FragmentDefinition) : EnvOKL doc env X := by
  intro s hs
  cases h with
  | mk _ hf _ => exact envOK_flatSel doc (sizeOf s) s le_rfl (hf s hs) env

theorem EnvOKL_append {doc : QueryDocument}
    {env : List FragmentDefinition} {A B : List Selection}
    (hA : EnvOKL doc env A) (hB : EnvOKL doc env B) :
    EnvOKL doc env (A ++ B) :=
  fun s hs => (List.mem_append.mp hs).elim (hA s) (hB s)

theorem weightL_mapValues : ∀ (M : FMap),
    weightL [] (mapValues M) = mapWeight M := by
  intro M
  induction M with
  | nil => simp [mapValues, weightL, mapWeight]
  | cons p M ih =>
      rw [mapValues_cons, weightL_cons, weightS_field, ih]
      simp [mapWeight]

theorem mapWeight_nil : mapWeight [] = 0 := rfl

theorem mapWeight_snoc (m : FMap) (k : String) (f : FieldS) :
    mapWeight (m ++ [(k, f)]) =
      mapWeight m + (1 + weightL [] f.selectionSet) := by
  simp [mapWeight]

theorem mapWeight_lookup {m : FMap} {key : String} {ex : FieldS}
    (hl : lookupField m key = some ex) :
    1 + weightL [] ex.selectionSet ≤ mapWeight m :=
  List.single_le_sum (fun x _ => Nat.zero_le x) _
    (List.mem_map_of_mem _ (lookupField_mem hl))

theorem mapWeight_update : ∀ {m : FMap} {key : String} (nf : FieldS)
    {ex : FieldS}, lookupField m key = some ex →
    mapWeight (updateField m key nf) + weightL [] ex.selectionSet =
      mapWeight m + weightL [] nf.selectionSet := by
  intro m
  induction m with
  | nil => intro key nf ex hl; simp [lookupField] at hl
  | cons p rest ih =>
      intro key nf ex hl
      obtain ⟨k2, f2⟩ := p
      simp only [lookupField] at hl
      simp only [updateField]
      by_cases hk : k2 = key
      · rw [if_pos hk] at hl ⊢
        injection hl with h2
        subst h2
        simp [mapWeight]
        omega
      · rw [if_neg hk] at hl ⊢
        have := ih nf hl
        simp [mapWeight] at this ⊢
        omega

/-- Sufficient fuel: under an acyclicity witness, flattening with any
fuel above the expansion weight succeeds, the output weight does not
exceed the input weight, and both loops preserve the map invariant
within their weight budget. -/
theorem flatten_total_bundle (doc : QueryDocument) : ∀ n : Nat,
    (∀ (env : List FragmentDefinition) (S : List Selection),
      EnvOKL doc env S → weightL env S < n →
      ∃ T, flattenSelectionSet n doc S = some T ∧
        weightL [] T ≤ weightL env S) ∧
    (∀ (fs : List Selection) (m : FMap), FlatOutOK n doc fs →
      MapOK n doc m → mapWeight m + weightL [] fs ≤ n →
      ∃ M, List.foldlM (fragStep n doc) m fs = some M ∧ MapOK n doc M ∧
        mapWeight M ≤ mapWeight m + weightL [] fs) ∧
    (∀ (S : List Selection) (env : List FragmentDefinition) (m : FMap),
      EnvOKL doc env S → MapOK n doc m →
      mapWeight m + weightL env S ≤ n →
      ∃ M, List.foldlM (flattenStep n doc) m S = some M ∧ MapOK n doc M ∧
        mapWeight M ≤ mapWeight m + weightL env S) := by
  intro n
  induction n with
  | zero =>
      refine ⟨fun env S _ hw => absurd hw (by omega), ?_, ?_⟩
      · intro fs m _ hm hw
        cases fs with
        | nil => exact ⟨m, rfl, hm, by simp [weightL_nil]⟩
        | cons s rest =>
            have := weightS_pos [] s
            rw [weightL_cons] at hw
            omega
      · intro S env m _ hm hw
        cases S with
        | nil => exact ⟨m, rfl, hm, by simp [weightL_nil]⟩
        | cons s rest =>
            have := weightS_pos env s
            rw [weightL_cons] at hw
            omega
  | succ n ih =>
      obtain ⟨ihA, ihC, ihB⟩ := ih
      have hA : ∀ (env : List FragmentDefinition) (S : List Selection),
          EnvOKL doc env S → weightL env S < n + 1 →
          ∃ T, flattenSelectionSet (n + 1) doc S = some T ∧
            weightL [] T ≤ weightL env S := by
        intro env S hok hw
        obtain ⟨M, hM, hMOK, hMw⟩ := ihB S env [] hok (MapOK_nil n doc)
          (by rw [mapWeight_nil]; omega)
        refine ⟨mapValues M, ?_, ?_⟩
        · rw [flattenSS_succ, hM]; rfl
        · rw [weightL_mapValues]
          rw [mapWeight_nil] at hMw
          omega
      have hC : ∀ (fs : List Selection) (m : FMap),
          FlatOutOK (n + 1) doc fs → MapOK (n + 1) doc m →
          mapWeight m + weightL [] fs ≤ n + 1 →
          ∃ M, List.foldlM (fragStep (n + 1) doc) m fs = some M ∧
            MapOK (n + 1) doc M ∧
            mapWeight M ≤ mapWeight m + weightL [] fs := by
        intro fs
        induction fs with
        | nil => intro m _ hm _; exact ⟨m, rfl, hm, by simp [weightL_nil]⟩
        | cons s rest ihfs =>
            intro m hOK hm hw
            obtain ⟨a, nm, x, y, c, rfl, hcstab, hcNS⟩ := hOK s (by simp)
            rw [weightL_cons, weightS_field] at hw
            cases hl : lookupField m (fieldKey a nm) with
            | none =>
                have hm2OK := MapOK_insert a nm x y c hm hl hcstab hcNS
                obtain ⟨M, hfold, hMOK, hMw⟩ := ihfs
                  (m ++ [(fieldKey a nm, ⟨a, nm, x, y, c⟩)])
                  (fun t ht => hOK t (List.mem_cons_of_mem _ ht)) hm2OK
                  (by rw [mapWeight_snoc]; dsimp only; omega)
                rw [mapWeight_snoc] at hMw
                dsimp only at hMw
                refine ⟨M, ?_, hMOK, ?_⟩
                · rw [List.foldlM_cons,
                    fragStep_field_none _ _ _ _ _ _ _ _ hl]
                  simp only [Option.bind_eq_bind, Option.some_bind]
                  exact hfold
                · rw [weightL_cons, weightS_field]
                  omega
            | some ex =>
                have hexNS : FlatNS ex.selectionSet :=
                  (hm.2 _ (lookupField_mem hl)).2.2
                have hexw := mapWeight_lookup hl
                have hargOK : EnvOKL doc [] (ex.selectionSet ++ c) :=
                  EnvOKL_append (envOK_flat doc hexNS [])
                    (envOK_flat doc hcNS [])
                have hargw : weightL [] (ex.selectionSet ++ c) < n + 1 := by
                  rw [weightL_append]; omega
                obtain ⟨mg, hmg, hmgw⟩ :=
                  hA [] (ex.selectionSet ++ c) hargOK hargw
                rw [weightL_append] at hmgw
                have hmgstab := (flatten_inv_bundle doc (n + 1)).2.2.2 _ mg hmg
                have hmgNS :=
                  ((flatten_inv_bundle doc (n + 1)).2.2.1 _ mg hmg).2
                have hm2OK := MapOK_update a nm ex mg hm hl hmgstab hmgNS
                have hm2w := mapWeight_update { ex with selectionSet := mg } hl
                dsimp only at hm2w
                obtain ⟨M, hfold, hMOK, hMw⟩ := ihfs
                  (updateField m (fieldKey a nm) { ex with selectionSet := mg })
                  (fun t ht => hOK t (List.mem_cons_of_mem _ ht)) hm2OK
                  (by omega)
                refine ⟨M, ?_, hMOK, ?_⟩
                · rw [List.foldlM_cons,
                    fragStep_field_some _ _ _ _ _ _ _ _ _ hl, hmg]
                  simp only [Option.bind_eq_bind, Option.some_bind]
                  exact hfold
                · rw [weightL_cons, weightS_field]
                  omega
      have hB : ∀ (S : List Selection) (env : List FragmentDefinition)
          (m : FMap), EnvOKL doc env S → MapOK (n + 1) doc m →
          mapWeight m + weightL env S ≤ n + 1 →
          ∃ M, List.foldlM (flattenStep (n + 1) doc) m S = some M ∧
            MapOK (n + 1) doc M ∧
            mapWeight M ≤ mapWeight m + weightL env S := by
        intro S
        induction S with
        | nil => intro env m _ hm _; exact ⟨m, rfl, hm, by simp [weightL_nil]⟩
        | cons s rest ihS =>
            intro env m hok hm hw
            have hok_rest : EnvOKL doc env rest :=
              fun t ht => hok t (List.mem_cons_of_mem _ ht)
            rw [weightL_cons] at hw
            cases hok s (by simp) with
            | field _ a2 nm2 x2 y2 c2 hc =>
                rw [weightS_field] at hw
                cases hl : lookupField m (fieldKey a2 nm2) with
                | none =>
                    obtain ⟨c2f, hc2f, hc2fw⟩ := hA env c2 hc (by omega)
                    have hstab2 :=
                      (flatten_inv_bundle doc (n + 1)).2.2.2 _ _ hc2f
                    have hNS2 :=
                      ((flatten_inv_bundle doc (n + 1)).2.2.1 _ _ hc2f).2
                    have hm2OK := MapOK_insert a2 nm2 x2 y2 c2f hm hl
                      hstab2 hNS2
                    obtain ⟨M, hfold, hMOK, hMw⟩ := ihS env
                      (m ++ [(fieldKey a2 nm2, ⟨a2, nm2, x2, y2, c2f⟩)])
                      hok_rest hm2OK (by rw [mapWeight_snoc]; dsimp only; omega)
                    rw [mapWeight_snoc] at hMw
                    dsimp only at hMw
                    refine ⟨M, ?_, hMOK, ?_⟩
                    · rw [List.foldlM_cons,
                        flattenStep_field_none _ _ _ _ _ _ _ _ hl, hc2f]
                      simp only [Option.bind_eq_bind, Option.some_bind]
                      exact hfold
                    · rw [weightL_cons, weightS_field]
                      omega
                | some ex =>
                    have hexNS : FlatNS ex.selectionSet :=
                      (hm.2 _ (lookupField_mem hl)).2.2
                    have hexw := mapWeight_lookup hl
                    have hargOK : EnvOKL doc env (ex.selectionSet ++ c2) :=
                      EnvOKL_append (envOK_flat doc hexNS env) hc
                    have hargw : weightL env (ex.selectionSet ++ c2) <
                        n + 1 := by
                      rw [weightL_append, weightL_flat hexNS env []]
                      omega
                    obtain ⟨mg, hmg, hmgw⟩ := hA env _ hargOK hargw
                    rw [weightL_append, weightL_flat hexNS env []] at hmgw
                    have hmgstab :=
                      (flatten_inv_bundle doc (n + 1)).2.2.2 _ mg hmg
                    have hmgNS :=
                      ((flatten_inv_bundle doc (n + 1)).2.2.1 _ mg hmg).2
                    have hm2OK := MapOK_update a2 nm2 ex mg hm hl
                      hmgstab hmgNS
                    have hm2w :=
                      mapWeight_update { ex with selectionSet := mg } hl
                    dsimp only at hm2w
                    obtain ⟨M, hfold, hMOK, hMw⟩ := ihS env
                      (updateField m (fieldKey a2 nm2)
                        { ex with selectionSet := mg })
                      hok_rest hm2OK (by omega)
                    refine ⟨M, ?_, hMOK, ?_⟩
                    · rw [List.foldlM_cons,
                        flattenStep_field_some _ _ _ _ _ _ _ _ _ hl, hmg]
                      simp only [Option.bind_eq_bind, Option.some_bind]
                      exact hfold
                    · rw [weightL_cons, weightS_field]
                      omega
            | inl _ tc2 c2 hc =>
                rw [weightS_inline] at hw
                obtain ⟨fs, hfs, hfsw⟩ := hA env c2 hc (by omega)
                have hfsOK :=
                  ((flatten_inv_bundle doc (n + 1)).2.2.1 _ _ hfs).1
                obtain ⟨m2, hfold2, hm2OK, hm2w⟩ := hC fs m hfsOK hm
                  (by omega)
                obtain ⟨M, hfold, hMOK, hMw⟩ := ihS env m2 hok_rest hm2OK
                  (by omega)
                refine ⟨M, ?_, hMOK, ?_⟩
                · rw [List.foldlM_cons, flattenStep_inline, hfs]
                  simp only [Option.bind_eq_bind, Option.some_bind]
                  rw [hfold2]
                  simp only [Option.some_bind]
                  exact hfold
                · rw [weightL_cons, weightS_inline]
                  omega
            | sprNone _ nm2 hfind =>
                obtain ⟨M, hfold, hMOK, hMw⟩ := ihS env m hok_rest hm
                  (by have := weightS_pos env (.fragmentSpread nm2); omega)
                refine ⟨M, ?_, hMOK, ?_⟩
                · rw [List.foldlM_cons,
                    flattenStep_spread_none _ _ _ _ hfind]
                  simp only [Option.bind_eq_bind, Option.some_bind]
                  exact hfold
                · rw [weightL_cons]
                  have := weightS_pos env (.fragmentSpread nm2)
                  omega
            | sprSome _ nm2 fd rest2 hfind htopo hbody =>
                have hwS := findTopo_weightS env _ rest2 fd htopo
                rw [hwS] at hw
                obtain ⟨fs, hfs, hfsw⟩ := hA rest2 fd.selectionSet hbody
                  (by omega)
                have hfsOK :=
                  ((flatten_inv_bundle doc (n + 1)).2.2.1 _ _ hfs).1
                obtain ⟨m2, hfold2, hm2OK, hm2w⟩ := hC fs m hfsOK hm
                  (by omega)
                obtain ⟨M, hfold, hMOK, hMw⟩ := ihS env m2 hok_rest hm2OK
                  (by omega)
                refine ⟨M, ?_, hMOK, ?_⟩
                · rw [List.foldlM_cons,
                    flattenStep_spread_some _ _ _ _ _ hfind, hfs]
                  simp only [Option.bind_eq_bind, Option.some_bind]
                  rw [hfold2]
                  simp only [Option.some_bind]
                  exact hfold
                · rw [weightL_cons, hwS]
                  omega
      exact ⟨hA, hC, hB⟩

/-- C10: for every selection tree and every document whose fragment
reference graph is acyclic — witnessed by a reverse-topologically
ordered environment in which every document-resolved spread is found,
with its body covered by the strictly shorter suffix behind it — the
recursive flattening function terminates: fuel one above the expansion
weight already succeeds, so the partiality of the fueled embedding is an
artifact of the embedding and the Go recursion is total under the
precondition.  (The code has no visited-fragment guard, so this rests
solely on the precondition.) -/
theorem flatten_terminates_acyclic (doc : QueryDocument)
    (env : List FragmentDefinition) (S : List Selection)
    (h : EnvOKL doc env S) :
    (flattenSelectionSet (weightL env S + 1) doc S).isSome := by
  obtain ⟨T, hT, _⟩ := (flatten_total_bundle doc (weightL env S + 1)).1
    env S h (Nat.lt_succ_self _)
  rw [hT]
  rfl

/-- Witness for C10 on the acyclic chain `A` spreads `B` spreads a
scalar field. -/
theorem flatten_terminates_acyclic_witness :
    (flattenSelectionSet
      (weightL [fragA10, fragB10] [Selection.fragmentSpread "A"] + 1)
      docAB [Selection.fragmentSpread "A"]).isSome := by
  refine flatten_terminates_acyclic docAB [fragA10, fragB10]
    [.fragmentSpread "A"] ?_
  intro s hs
  simp only [List.mem_singleton] at hs
  subst hs
  refine EnvOKSel.sprSome _ "A" fragA10 [fragB10] rfl rfl ?_
  intro t ht
  simp only [fragA10, List.mem_singleton] at ht
  subst ht
  refine EnvOKSel.sprSome _ "B" fragB10 [] rfl rfl ?_
  intro u hu
  simp only [fragB10, List.mem_singleton] at hu
  subst hu
  refine EnvOKSel.field _ "id" "id" "" "" [] ?_
  intro v hv
  simp at hv

/-! ### Frame property of the heap-model flattening (claim C8) -/

theorem next_writeH (h : Heap) (i : Nat) (f : HField) :
    (writeH h i f).next = h.next := rfl

theorem lookupHF_write_ne :
    ∀ (mem : List (Nat × HField)) (i j : Nat) (f : HField), j ≠ i →
      lookupHF (mem.map (fun p => if p.1 = i then (i, f) else p)) j =
        lookupHF mem j := by
  intro mem i j f hne
  induction mem with
  | nil => rfl
  | cons p rest ih =>
      obtain ⟨k, g⟩ := p
      simp only [List.map_cons]
      by_cases hk : k = i
      · subst hk
        rw [if_pos rfl]
        show (if k = j then some f else
          lookupHF (rest.map (fun p => if p.1 = k then (k, f) else p)) j) =
          (if k = j then some g else lookupHF rest j)
        rw [if_neg (fun hh => hne hh.symm), if_neg (fun hh => hne hh.symm), ih]
      · rw [if_neg hk]
        show (if k = j then some g else
          lookupHF (rest.map (fun p => if p.1 = i then (i, f) else p)) j) =
          (if k = j then some g else lookupHF rest j)
        by_cases hkj : k = j
        · rw [if_pos hkj, if_pos hkj]
        · rw [if_neg hkj, if_neg hkj, ih]

theorem readH_writeH_ne (h : Heap) (i j : Nat) (f : HField) (hne : j ≠ i) :
    readH (writeH h i f) j = readH h j :=
  lookupHF_write_ne h.mem i j f hne

theorem lookupHF_write_isSome :
    ∀ (mem : List (Nat × HField)) (i : Nat) (f : HField),
      (lookupHF mem i).isSome →
      lookupHF (mem.map (fun p => if p.1 = i then (i, f) else p)) i =
        some f := by
  intro mem i f hs
  induction mem with
  | nil => simp [lookupHF] at hs
  | cons p rest ih =>
      obtain ⟨k, g⟩ := p
      simp only [List.map_cons]
      by_cases hk : k = i
      · rw [if_pos hk]
        show (if i = i then some f else _) = some f
        rw [if_pos rfl]
      · rw [if_neg hk]
        show (if k = i then some g else
          lookupHF (rest.map (fun p => if p.1 = i then (i, f) else p)) i) =
          some f
        rw [if_neg hk]
        refine ih ?_
        have : lookupHF ((k, g) :: rest) i =
            if k = i then some g else lookupHF rest i := rfl
        rw [this, if_neg hk] at hs
        exact hs

theorem readH_writeH_isSome {h : Heap} {i : Nat} (f : HField)
    (hs : (readH h i).isSome) : readH (writeH h i f) i = some f :=
  lookupHF_write_isSome h.mem i f hs

theorem readH_writeH_isSome_any {h : Heap} {j : Nat}
    (hs : (readH h j).isSome) (i : Nat) (f : HField) :
    (readH (writeH h i f) j).isSome := by
  by_cases hji : j = i
  · subst hji
    rw [readH_writeH_isSome f hs]
    rfl
  · rw [readH_writeH_ne h i j f hji]
    exact hs

theorem next_allocH (h : Heap) (f : HField) :
    (allocH h f).1.next = h.next + 1 := rfl

theorem readH_allocH_ne (h : Heap) (f : HField) (j : Nat)
    (hne : j ≠ h.next) : readH (allocH h f).1 j = readH h j := by
  have : readH (allocH h f).1 j =
      if h.next = j then some f else lookupHF h.mem j := rfl
  rw [this, if_neg (fun hh => hne hh.symm)]
  rfl

theorem readH_allocH_self (h : Heap) (f : HField) :
    readH (allocH h f).1 h.next = some f := by
  have : readH (allocH h f).1 h.next =
      if h.next = h.next then some f else lookupHF h.mem h.next := rfl
  rw [this, if_pos rfl]

theorem heapFrame_refl (h : Heap) : heapFrame h h :=
  ⟨le_refl _, fun _ _ => rfl⟩

theorem heapFrame_trans {h1 h2 h3 : Heap} (a : heapFrame h1 h2)
    (b : heapFrame h2 h3) : heapFrame h1 h3 :=
  ⟨le_trans a.1 b.1,
   fun i hi => (b.2 i (lt_of_lt_of_le hi a.1)).trans (a.2 i hi)⟩

theorem heapFrame_writeH {h0 h : Heap} (hf : heapFrame h0 h) {i : Nat}
    (hi : h0.next ≤ i) (f : HField) : heapFrame h0 (writeH h i f) := by
  refine ⟨by rw [next_writeH]; exact hf.1, fun j hj => ?_⟩
  rw [readH_writeH_ne h i j f (by omega)]
  exact hf.2 j hj

theorem heapFrame_allocH {h0 h : Heap} (hf : heapFrame h0 h) (f : HField) :
    heapFrame h0 (allocH h f).1 := by
  have h1 := hf.1
  refine ⟨by rw [next_allocH]; omega, fun j hj => ?_⟩
  rw [readH_allocH_ne h f j (by omega)]
  exact hf.2 j hj

theorem idOK_writeH {cur h0 : Heap} {r : Nat} (h : idOK cur h0 r)
    (i : Nat) (f : HField) : idOK (writeH cur i f) h0 r :=
  ⟨h.1, by rw [next_writeH]; exact h.2.1, readH_writeH_isSome_any h.2.2 i f⟩

theorem idOK_allocH {cur h0 : Heap} {r : Nat} (h : idOK cur h0 r)
    (f : HField) : idOK (allocH cur f).1 h0 r := by
  have h1 := h.2.1
  refine ⟨h.1, by rw [next_allocH]; omega, ?_⟩
  rw [readH_allocH_ne cur f r (by omega)]
  exact h.2.2

theorem idOK_frame {cur h0 : Heap} {r : Nat} (h : idOK cur h0 r)
    {h2 : Heap} (hf : heapFrame cur h2) : idOK h2 h0 r :=
  ⟨h.1, lt_of_lt_of_le h.2.1 hf.1, by rw [hf.2 r h.2.1]; exact h.2.2⟩

theorem lookupHMap_mem : ∀ {m : HMap} {k : String} {i : Nat},
    lookupHMap m k = some i → (k, i) ∈ m := by
  intro m
  induction m with
  | nil => intro k i h; simp [lookupHMap] at h
  | cons p rest ih =>
      intro k i h
      obtain ⟨k2, i2⟩ := p
      simp only [lookupHMap] at h
      by_cases hk : k2 = k
      · rw [if_pos hk] at h
        injection h with h2
        subst hk; subst h2
        exact List.mem_cons_self _ _
      · rw [if_neg hk] at h
        exact List.mem_cons_of_mem _ (ih h)

theorem foldFragFieldH_frame
    {flat : Heap → List HSel → Option (Heap × List HSel)}
    (hflat : FrameOK flat) (h0 : Heap) (refs : List Nat) :
    ∀ (st : Heap × HMap) (s : HSel) (st2 : Heap × HMap),
      (∀ r, s = HSel.field r → r ∈ refs) → stOK h0 refs st →
      foldFragFieldH flat st.1 st.2 s = some st2 → stOK h0 refs st2 := by
  intro st s st2 hrs hst hcall
  obtain ⟨h, m⟩ := st
  cases s with
  | inlineFragment tc c =>
      simp only [foldFragFieldH] at hcall
      cases hcall
      exact hst
  | fragmentSpread nm =>
      simp only [foldFragFieldH] at hcall
      cases hcall
      exact hst
  | field ref =>
      have hrOK : idOK h h0 ref := hst.2.2 ref (hrs ref rfl)
      obtain ⟨f, hf⟩ := Option.isSome_iff_exists.mp hrOK.2.2
      simp only [foldFragFieldH, hf, Option.bind_eq_bind, Option.some_bind]
        at hcall
      cases hl : lookupHMap m (hFieldKey f) with
      | some ex =>
          rw [hl] at hcall
          have hexOK : idOK h h0 ex := hst.2.1 _ (lookupHMap_mem hl)
          obtain ⟨exF, hexF⟩ := Option.isSome_iff_exists.mp hexOK.2.2
          simp only [hexF, Option.bind_eq_bind, Option.some_bind,
            Option.bind_eq_some] at hcall
          obtain ⟨⟨h2, merged⟩, hflatc, heq⟩ := hcall
          simp only [Option.some.injEq] at heq
          subst heq
          have hfr := hflat h _ h2 merged hflatc
          exact ⟨heapFrame_writeH (heapFrame_trans hst.1 hfr.1) hexOK.1 _,
            fun p hp => idOK_writeH (idOK_frame (hst.2.1 p hp) hfr.1) ex _,
            fun r hr => idOK_writeH (idOK_frame (hst.2.2 r hr) hfr.1) ex _⟩
      | none =>
          rw [hl] at hcall
          cases hcall
          refine ⟨hst.1, ?_, hst.2.2⟩
          intro p hp
          rcases List.mem_append.mp hp with hp | hp
          · exact hst.2.1 p hp
          · simp only [List.mem_singleton] at hp
            subst hp
            exact hrOK

theorem processFieldH_frame
    {flat : Heap → List HSel → Option (Heap × List HSel)}
    (hflat : FrameOK flat) (h0 : Heap) (refs : List Nat) :
    ∀ (st : Heap × HMap) (ref : Nat) (st2 : Heap × HMap),
      stOK h0 refs st → processFieldH flat st.1 st.2 ref = some st2 →
      stOK h0 refs st2 := by
  intro st ref st2 hst hcall
  obtain ⟨h, m⟩ := st
  cases hf : readH h ref with
  | none => simp [processFieldH, hf] at hcall
  | some f =>
      simp only [processFieldH, hf, Option.bind_eq_bind, Option.some_bind]
        at hcall
      cases hl : lookupHMap m (hFieldKey f) with
      | some ex =>
          rw [hl] at hcall
          have hexOK : idOK h h0 ex := hst.2.1 _ (lookupHMap_mem hl)
          obtain ⟨exF, hexF⟩ := Option.isSome_iff_exists.mp hexOK.2.2
          simp only [hexF, Option.bind_eq_bind, Option.some_bind,
            Option.bind_eq_some] at hcall
          obtain ⟨⟨h2, merged⟩, hflatc, heq⟩ := hcall
          simp only [Option.some.injEq] at heq
          subst heq
          have hfr := hflat h _ h2 merged hflatc
          exact ⟨heapFrame_writeH (heapFrame_trans hst.1 hfr.1) hexOK.1 _,
            fun p hp => idOK_writeH (idOK_frame (hst.2.1 p hp) hfr.1) ex _,
            fun r hr => idOK_writeH (idOK_frame (hst.2.2 r hr) hfr.1) ex _⟩
      | none =>
          rw [hl] at hcall
          simp only [Option.bind_eq_some] at hcall
          obtain ⟨⟨h2, c2⟩, hflatc, heq⟩ := hcall
          simp only [allocH, Option.some.injEq] at heq
          subst heq
          have hfr := hflat h _ h2 c2 hflatc
          have hhh : h0.next ≤ h.next := hst.1.1
          have hh2 : h.next ≤ h2.next := hfr.1.1
          refine ⟨heapFrame_allocH (heapFrame_trans hst.1 hfr.1) _, ?_, ?_⟩
          · intro p hp
            rcases List.mem_append.mp hp with hp | hp
            · exact idOK_allocH (idOK_frame (hst.2.1 p hp) hfr.1) _
            · simp only [List.mem_singleton] at hp
              subst hp
              refine ⟨by dsimp only; omega, by dsimp only; omega, ?_⟩
              simp [readH, lookupHF]
          · intro r hr
            exact idOK_allocH (idOK_frame (hst.2.2 r hr) hfr.1) _

theorem processSelectionH_frame
    {flat : Heap → List HSel → Option (Heap × List HSel)}
    (hflat : FrameOK flat) (doc : HQueryDocument) (h0 : Heap) :
    ∀ (st : Heap × HMap) (s : HSel) (st2 : Heap × HMap),
      stOK h0 [] st → processSelectionH flat doc st.1 st.2 s = some st2 →
      stOK h0 [] st2 := by
  intro st s st2 hst hcall
  obtain ⟨h, m⟩ := st
  cases s with
  | field ref => exact processFieldH_frame hflat h0 [] (h, m) ref st2 hst hcall
  | inlineFragment tc c =>
      simp only [processSelectionH, Option.bind_eq_bind, Option.bind_eq_some]
        at hcall
      obtain ⟨⟨h2, fs⟩, hflatc, hfold⟩ := hcall
      have hfr := hflat h c h2 fs hflatc
      have hinit : stOK h0 (refsOf fs) (h2, m) := by
        refine ⟨heapFrame_trans hst.1 hfr.1,
          fun p hp => idOK_frame (hst.2.1 p hp) hfr.1, ?_⟩
        intro r hr
        simp only [refsOf, List.mem_filterMap] at hr
        obtain ⟨a, ha, hmatch⟩ := hr
        cases a with
        | field r2 =>
            simp only [Option.some.injEq] at hmatch
            subst hmatch
            obtain ⟨r3, hr3eq, hid⟩ := hfr.2 _ ha
            injection hr3eq with hr3eq
            subst hr3eq
            exact ⟨le_trans hst.1.1 hid.1, hid.2.1, hid.2.2⟩
        | inlineFragment tc2 c2 => simp at hmatch
        | fragmentSpread nm2 => simp at hmatch
      have hres := foldlM_option_inv (stOK h0 (refsOf fs))
        (fun b a b2 ha hb hstep => foldFragFieldH_frame hflat h0 (refsOf fs)
          b a b2 (fun r hr => List.mem_filterMap.mpr ⟨a, ha, by rw [hr]⟩)
          hb hstep)
        (h2, m) st2 hinit hfold
      exact ⟨hres.1, hres.2.1, fun r hr => absurd hr (by simp)⟩
  | fragmentSpread nm =>
      cases hfind : findHFrag doc.fragments nm with
      | none =>
          simp only [processSelectionH, hfind] at hcall
          cases hcall
          exact hst
      | some fd =>
          simp only [processSelectionH, hfind, Option.bind_eq_bind,
            Option.bind_eq_some] at hcall
          obtain ⟨⟨h2, fs⟩, hflatc, hfold⟩ := hcall
          have hfr := hflat h fd.selectionSet h2 fs hflatc
          have hinit : stOK h0 (refsOf fs) (h2, m) := by
            refine ⟨heapFrame_trans hst.1 hfr.1,
              fun p hp => idOK_frame (hst.2.1 p hp) hfr.1, ?_⟩
            intro r hr
            simp only [refsOf, List.mem_filterMap] at hr
            obtain ⟨a, ha, hmatch⟩ := hr
            cases a with
            | field r2 =>
                simp only [Option.some.injEq] at hmatch
                subst hmatch
                obtain ⟨r3, hr3eq, hid⟩ := hfr.2 _ ha
                injection hr3eq with hr3eq
                subst hr3eq
                exact ⟨le_trans hst.1.1 hid.1, hid.2.1, hid.2.2⟩
            | inlineFragment tc2 c2 => simp at hmatch
            | fragmentSpread nm2 => simp at hmatch
          have hres := foldlM_option_inv (stOK h0 (refsOf fs))
            (fun b a b2 ha hb hstep => foldFragFieldH_frame hflat h0
              (refsOf fs) b a b2
              (fun r hr => List.mem_filterMap.mpr ⟨a, ha, by rw [hr]⟩)
              hb hstep)
            (h2, m) st2 hinit hfold
          exact ⟨hres.1, hres.2.1, fun r hr => absurd hr (by simp)⟩

/-- The heap-model flattening obeys the frame contract at every fuel:
cells allocated before the call are untouched, outputs are fresh live
fields. -/
theorem flattenSelectionSetH_frame (doc : HQueryDocument) :
    ∀ n : Nat, FrameOK (flattenSelectionSetH n doc) := by
  intro n
  induction n with
  | zero =>
      intro h S h2 out hcall
      simp [flattenSelectionSetH] at hcall
  | succ n ih =>
      intro h S h2 out hcall
      simp only [flattenSelectionSetH, Option.bind_eq_bind,
        Option.bind_eq_some] at hcall
      obtain ⟨⟨h2b, m⟩, hfold, heq⟩ := hcall
      simp only [Option.some.injEq, Prod.mk.injEq] at heq
      obtain ⟨rfl, rfl⟩ := heq
      have hst := foldlM_option_inv (stOK h ([] : List Nat))
        (fun b a b2 _ hb hstep =>
          processSelectionH_frame ih doc h b a b2 hb hstep)
        (h, []) (h2b, m)
        ⟨heapFrame_refl h, fun p hp => absurd hp (by simp),
          fun r hr => absurd hr (by simp)⟩ hfold
      refine ⟨hst.1, ?_⟩
      intro s hs
      obtain ⟨p, hp, rfl⟩ := List.mem_map.mp hs
      exact ⟨p.2, rfl, hst.2.1 p hp⟩

/-- C8: flattening never mutates its inputs.  In the heap model every
`*ast.Field` node — those of the input operation's selection tree and
those of every fragment definition — is a heap cell allocated before the
call (`i < h.next`), and after any successful flatten every such cell
reads exactly as before: the single mutation in the source
(`existing.SelectionSet = …`) only ever targets cells the call itself
allocated.  The document and operation are pure values the embedding
never rebuilds, so the raw operation remains usable for scoring and
fragments may be reused by other operations. -/
theorem flattenH_no_input_mutation (n : Nat) (doc : HQueryDocument)
    (h : Heap) (S : List HSel) (h2 : Heap) (out : List HSel)
    (hcall : flattenSelectionSetH n doc h S = some (h2, out)) :
    (∀ i, i < h.next → readH h2 i = readH h i) ∧ h.next ≤ h2.next := by
  have hfr := (flattenSelectionSetH_frame doc n h S h2 out hcall).1
  exact ⟨hfr.2, hfr.1⟩

/-- Witness for C8: flattening a spread of fragment `F` (whose body
points at cell 0) next to a field pointing at cell 1 leaves cells 0 and
1 untouched and allocates fresh cells for its output. -/
theorem flattenH_no_input_mutation_witness :
    (∀ i, i < hWitHeap.next → readH hWitHeap2 i = readH hWitHeap i) ∧
    hWitHeap.next ≤ hWitHeap2.next :=
  flattenH_no_input_mutation 3 hWitDoc hWitHeap hWitSel hWitHeap2
    [HSel.field 2, HSel.field 3] rfl

theorem flatten_merge_children_eq_merge_concat_witness :
    ∃ C, flattenSelectionSet 3 fixtureDoc ([idSel, idSel] ++ [nameSel]) =
        some C ∧
      [Selection.field "a" "a" "" "" [idSel, nameSel]] =
        [Selection.field "a" "a" "" "" C] :=
  flatten_merge_children_eq_merge_concat 3 fixtureDoc "a" "a" "" "" "" ""
    [idSel, idSel] [nameSel] [.field "a" "a" "" "" [idSel, nameSel]] rfl

end Gql
